import Mathlib

/-!
Verification development for the build execution core (src/src/build.cc).
The definitions below are a shallow embedding of the C++ source: pure
functions become Lean functions, stateful code becomes explicit state
passing, fallible or recursive code is fuel-indexed and returns Option.
-/

namespace BuildCore

/-! Part 1: RealCommandRunner::CanRunMore (build.cc lines 750-770).
The C++ computes capacities in integer registers; the load average values
are floats, modelled here as rationals, with the float-to-int conversion
modelled as truncation toward zero. -/

/-- Truncation toward zero of a rational, modelling the C++ float-to-int
conversion in `int load_capacity = config_.max_load_average - GetLoadAverage()`. -/
def cppTrunc (q : ℚ) : Int := Int.tdiv q.num (q.den : Int)

structure RunnerCfg where
  parallelism : Int
  maxLoadAverage : ℚ
deriving DecidableEq

structure RunnerCounts where
  running : Nat
  finished : Nat
deriving DecidableEq

/-- Embedding of RealCommandRunner::CanRunMore (build.cc 750-770). -/
def canRunMore (cfg : RunnerCfg) (c : RunnerCounts) (loadAvg : ℚ) : Int :=
  let subprocNumber : Int := (c.running : Int) + (c.finished : Int)
  let capacity : Int := cfg.parallelism - subprocNumber
  let capacity2 : Int :=
    if 0 < cfg.maxLoadAverage then
      let loadCapacity : Int := cppTrunc (cfg.maxLoadAverage - loadAvg)
      if loadCapacity < capacity then loadCapacity else capacity
    else capacity
  let capacity3 : Int := if capacity2 < 0 then 0 else capacity2
  if capacity3 = 0 ∧ c.running = 0 then 1 else capacity3

/-- Transcription of claim C6 as stated: the load-average term is part of the
minimum unconditionally. -/
def canRunMoreClaimed (cfg : RunnerCfg) (c : RunnerCounts) (loadAvg : ℚ) : Int :=
  let r : Int :=
    min (cfg.parallelism - ((c.running : Int) + (c.finished : Int)))
      (cppTrunc (cfg.maxLoadAverage - loadAvg))
  let r2 : Int := max r 0
  if r2 = 0 ∧ c.running = 0 then 1 else r2

/-- The amended formula: the load-average term participates in the minimum
only when max_load_average is positive. -/
def canRunMoreAmendedSpec (cfg : RunnerCfg) (c : RunnerCounts) (loadAvg : ℚ) : Int :=
  let base : Int := cfg.parallelism - ((c.running : Int) + (c.finished : Int))
  let r : Int :=
    if 0 < cfg.maxLoadAverage then min base (cppTrunc (cfg.maxLoadAverage - loadAvg))
    else base
  let r2 : Int := max r 0
  if r2 = 0 ∧ c.running = 0 then 1 else r2

theorem cppTrunc_zero : cppTrunc 0 = 0 := by
  unfold cppTrunc
  norm_num

/-- C6 counterexample: with max_load_average = 0 (the load bound disabled),
parallelism 4 and nothing in flight, the code returns 4 while the formula of
the claim returns 1. -/
theorem canRunMore_counterexample :
    canRunMore ⟨4, 0⟩ ⟨0, 0⟩ 0 = 4 ∧ canRunMoreClaimed ⟨4, 0⟩ ⟨0, 0⟩ 0 = 1 ∧
      (4 : Int) ≠ 1 := by
  refine ⟨?_, ?_, by decide⟩
  · simp [canRunMore]
  · simp [canRunMoreClaimed, cppTrunc_zero]

/-- C6 amended: CanRunMore equals min(parallelism - inflight, trunc(max_load_average -
load)) clamped to at least 0 with the forward-progress exception, where the
load term participates only when max_load_average is positive. -/
theorem canRunMore_eq_amendedSpec :
    ∀ cfg c loadAvg, canRunMore cfg c loadAvg = canRunMoreAmendedSpec cfg c loadAvg := by
  intro cfg c loadAvg
  unfold canRunMore canRunMoreAmendedSpec
  by_cases h : 0 < cfg.maxLoadAverage <;>
    simp only [h, if_true, if_false] <;>
    rcases Int.lt_or_le (cppTrunc (cfg.maxLoadAverage - loadAvg))
      (cfg.parallelism - ((c.running : Int) + (c.finished : Int))) with h2 | h2 <;>
    simp only [Int.min_def, Int.max_def] <;> split_ifs <;> omega

/-! Part 2: VizioLog::FormatTargetName (build.cc 598-608), modelled on lists of
characters. rfindSub is the embedding of std::string::rfind: it yields the
largest index at which the needle occurs, none when it does not occur. -/

/-- needle is an initial segment of hay. -/
def listLeads : List Char → List Char → Bool
  | [], _ => true
  | _ :: _, [] => false
  | c :: cs, h :: hs => c = h && listLeads cs hs

/-- Largest index at which needle occurs in hay (std::string::rfind). -/
def rfindSub : List Char → List Char → Option Nat
  | [], needle => if listLeads needle [] then some 0 else none
  | a :: as, needle =>
    match rfindSub as needle with
    | some q => some (q + 1)
    | none => if listLeads needle (a :: as) then some 0 else none

def tripleUnderscore : List Char := ['_', '_', '_']

/-- Embedding of VizioLog::FormatTargetName (build.cc 598-608): when "___"
occurs, drop the tail from its last occurrence and then keep only the part
after the last remaining underscore; otherwise return the name unchanged. -/
def formatTargetName (name : List Char) : List Char :=
  match rfindSub name tripleUnderscore with
  | none => name
  | some pos =>
    let name1 := name.take pos
    match rfindSub name1 ['_'] with
    | none => name1
    | some pos2 => name1.drop (pos2 + 1)

/-- Transcription of claim C9 as stated: trim the "___" tail when present, and
then, unconditionally, trim the leading underscore-separated segments. -/
def formatTargetNameClaimed (name : List Char) : List Char :=
  let name1 :=
    match rfindSub name tripleUnderscore with
    | none => name
    | some pos => name.take pos
  match rfindSub name1 ['_'] with
  | none => name1
  | some pos2 => name1.drop (pos2 + 1)

/-- Everything after the last underscore; the whole list when it has no
underscore. -/
def afterLastUnderscore (l : List Char) : List Char :=
  (l.reverse.takeWhile (fun c => !(c = '_'))).reverse

/-- The amended description of the label heuristic: the leading-segment trim
happens only when a "___" tail was found and removed. -/
def formatTargetNameAmended (name : List Char) : List Char :=
  match rfindSub name tripleUnderscore with
  | none => name
  | some pos => afterLastUnderscore (name.take pos)

theorem listLeads_single_cons (c a : Char) (as : List Char) :
    listLeads [c] (a :: as) = decide (c = a) := by
  simp [listLeads]

theorem rfindSub_single_none {l : List Char} {c : Char} :
    rfindSub l [c] = none ↔ c ∉ l := by
  induction l with
  | nil => simp [rfindSub, listLeads]
  | cons a as ih =>
    simp only [rfindSub]
    cases h : rfindSub as [c] with
    | some q =>
      have hc : c ∈ as := by
        by_contra hn
        rw [ih.mpr hn] at h
        cases h
      simp [hc]
    | none =>
      rw [listLeads_single_cons]
      have has : c ∉ as := ih.mp h
      by_cases hc : c = a <;> simp [hc, has]

theorem rfindSub_single_some {l : List Char} {c : Char} {q : Nat} :
    rfindSub l [c] = some q → q < l.length ∧ l.drop q ≠ [] ∧
      (l.drop q).head? = some c ∧ c ∉ l.drop (q + 1) := by
  induction l generalizing q with
  | nil => simp [rfindSub, listLeads]
  | cons a as ih =>
    simp only [rfindSub]
    cases h : rfindSub as [c] with
    | some q0 =>
      intro hq
      simp only [Option.some.injEq] at hq
      subst hq
      obtain ⟨h1, h2, h3, h4⟩ := ih h
      refine ⟨by simpa using Nat.succ_lt_succ h1, by simpa using h2, by simpa using h3,
        by simpa using h4⟩
    | none =>
      rw [listLeads_single_cons]
      by_cases hc : c = a
      · intro hq
        simp [hc] at hq
        have hq0 : q = 0 := by omega
        subst hq0
        have has : c ∉ as := rfindSub_single_none.mp h
        subst hc
        simp [has]
      · simp [hc]

theorem takeWhile_append_of_exists {p : Char → Bool} {l : List Char} (t : List Char)
    (h : ∃ c ∈ l, ¬ p c) : (l ++ t).takeWhile p = l.takeWhile p := by
  induction l with
  | nil => simp at h
  | cons a as ih =>
    by_cases hp : p a
    · simp only [List.cons_append, List.takeWhile_cons, hp]
      rcases h with ⟨c, hc, hpc⟩
      rcases List.mem_cons.mp hc with rfl | hc2
      · exact absurd hp hpc
      · rw [ih ⟨c, hc2, hpc⟩]
    · simp [List.takeWhile_cons, hp]

theorem takeWhile_append_of_all {p : Char → Bool} {l : List Char} (t : List Char)
    (h : ∀ c ∈ l, p c) : (l ++ t).takeWhile p = l ++ t.takeWhile p := by
  induction l with
  | nil => simp
  | cons a as ih =>
    have hpa : p a = true := h a (by simp)
    simp only [List.cons_append, List.takeWhile_cons, hpa]
    simp only [if_true]
    rw [ih (fun c hc => h c (by simp [hc]))]

theorem afterLast_of_not_mem {l : List Char} (h : '_' ∉ l) :
    afterLastUnderscore l = l := by
  unfold afterLastUnderscore
  rw [List.takeWhile_eq_self_iff.mpr, List.reverse_reverse]
  intro c hc
  simp only [Bool.not_eq_true', decide_eq_false_iff_not]
  intro hcc
  exact h (by simpa [hcc] using (List.mem_reverse.mp hc))

theorem afterLast_of_rfind_some {l : List Char} {q : Nat}
    (h : rfindSub l ['_'] = some q) : afterLastUnderscore l = l.drop (q + 1) := by
  obtain ⟨h1, h2, h3, h4⟩ := rfindSub_single_some h
  cases hdrop : l.drop q with
  | nil => exact absurd hdrop h2
  | cons b bs =>
    have hb : b = '_' := by
      rw [hdrop] at h3
      simpa using h3
    have hbs : bs = l.drop (q + 1) := by
      have h5 := List.drop_drop 1 q l
      rw [hdrop] at h5
      simpa using h5
    have h4' : '_' ∉ bs := by rw [hbs]; exact h4
    have hrev : l.reverse = bs.reverse ++ '_' :: (l.take q).reverse := by
      conv_lhs => rw [← List.take_append_drop q l, hdrop, hb]
      simp
    unfold afterLastUnderscore
    rw [hrev]
    rw [takeWhile_append_of_all ('_' :: (l.take q).reverse)
      (fun c hc => by
        simp only [Bool.not_eq_true', decide_eq_false_iff_not]
        intro hcc
        exact h4' (by simpa [hcc] using List.mem_reverse.mp hc))]
    have hstop : List.takeWhile (fun c => !(c = '_')) ('_' :: (l.take q).reverse) = [] := by
      simp [List.takeWhile_cons]
    rw [hstop, List.append_nil, List.reverse_reverse, hbs]

/-- C9 counterexample: on the rule name "a_b", which has no "___" tail, the
code returns the name unchanged while the two sequential trims of the claim
would strip the leading segment. -/
theorem formatTargetName_counterexample :
    formatTargetName ['a', '_', 'b'] = ['a', '_', 'b'] ∧
      formatTargetNameClaimed ['a', '_', 'b'] = ['b'] ∧
      (['a', '_', 'b'] : List Char) ≠ ['b'] := by
  refine ⟨by decide, by decide, by decide⟩

/-- C9 amended: when the name contains "___", the label is the part after the
last underscore of the text before the last "___"; names without "___" are
returned unchanged. -/
theorem formatTargetName_eq_amended :
    ∀ name, formatTargetName name = formatTargetNameAmended name := by
  intro name
  unfold formatTargetName formatTargetNameAmended
  cases rfindSub name tripleUnderscore with
  | none => rfl
  | some pos =>
    simp only
    cases h : rfindSub (name.take pos) ['_'] with
    | none => exact (afterLast_of_not_mem (rfindSub_single_none.mp h)).symm
    | some q => exact (afterLast_of_rfind_some h).symm

/-! Part 3: the graph data model and the Plan state.  Nodes and edges are
identified by indices into the lists of a Graph.  Mutable per-node and
per-edge fields of the C++ (dirty, outputs_ready_, critical_path_weight_, the
pool counters) live in PlanState; the graph itself is static. -/

structure NodeRec where
  path : String
  inEdge : Option Nat
  outEdges : List Nat
  genByDepLoader : Bool
  dyndepPending : Bool
  mtime : Int
deriving DecidableEq, Inhabited

structure EdgeRec where
  inputs : List Nat
  orderOnlyDeps : Nat
  outputs : List Nat
  phony : Bool
  pool : Nat
  restat : Bool
  generator : Bool
  depsMissing : Bool
  depsType : String
  rule : String
  rspfile : Bool
deriving DecidableEq, Inhabited

/-- The static dependency graph: node and edge records addressed by index,
and the per-pool depth (0 meaning unlimited, as for the default pool). -/
structure Graph where
  nodes : List NodeRec
  edges : List EdgeRec
  poolDepths : List Nat
deriving DecidableEq, Inhabited

def Graph.node (g : Graph) (i : Nat) : NodeRec := g.nodes.getD i default

def Graph.edge (g : Graph) (i : Nat) : EdgeRec := g.edges.getD i default

def Graph.poolDepth (g : Graph) (i : Nat) : Nat := g.poolDepths.getD i 0

inductive Want where
  | nothing
  | toStart
  | toFinish
deriving DecidableEq, Inhabited

/-- Modelled from the spec: the Pool state (state.h/state.cc are not part of
src/).  Spec 4.1: a pool has an in-flight counter adjusted by edge_scheduled
and edge_finished, and a delay queue ordered by critical-path weight. -/
structure PoolState where
  inflight : Int
  delayed : List Nat
deriving DecidableEq, Inhabited

/-- The mutable state of Plan (build.h fields) together with the mutable
graph flags: node dirty bits, edge outputs_ready_ bits, critical-path
weights and the pool states. -/
structure PlanState where
  targets : List Nat
  want : List (Nat × Want)
  wantedEdges : Int
  commandEdges : Int
  ready : List Nat
  dirty : Nat → Bool
  outputsReady : Nat → Bool
  cpw : Nat → Int
  pools : Nat → PoolState

/-- Lookup in the want map (modelled as an association list; iteration order
is insertion order rather than std::map key order, which no modelled
operation observes beyond permutation of the ready queue). -/
def wantFind : List (Nat × Want) → Nat → Option Want
  | [], _ => none
  | (k, v) :: rest, e => if e = k then some v else wantFind rest e

/-- Insert a kWantNothing entry if absent; returns the new list, whether the
key was already present, and the value now associated to the key (the
want_ins iterator of build.cc line 137). -/
def wantInsert : List (Nat × Want) → Nat → List (Nat × Want) × Bool × Want
  | [], e => ([(e, Want.nothing)], false, Want.nothing)
  | (k, v) :: rest, e =>
    if e = k then ((k, v) :: rest, true, v)
    else
      let r := wantInsert rest e
      ((k, v) :: r.1, r.2.1, r.2.2)

def wantSet (w : List (Nat × Want)) (e : Nat) (v : Want) : List (Nat × Want) :=
  w.map (fun p => if p.1 = e then (p.1, v) else p)

def wantErase (w : List (Nat × Want)) (e : Nat) : List (Nat × Want) :=
  w.filter (fun p => !(p.1 = e))

/-- Number of want entries whose state is not kWantNothing (the count that
wanted_edges_ is supposed to track). -/
def countWanted (w : List (Nat × Want)) : Int :=
  ((w.filter (fun p => !(p.2 = Want.nothing))).length : Int)

/-- Number of non-phony edges among the want entries whose state is not
kWantNothing (the count that command_edges_ is supposed to track). -/
def countCommand (g : Graph) (w : List (Nat × Want)) : Int :=
  ((w.filter (fun p => !(p.2 = Want.nothing) && !(g.edge p.1).phony)).length : Int)

/-- Embedding of Plan::EdgeWanted (build.cc 166-170). -/
def edgeWanted (g : Graph) (st : PlanState) (e : Nat) : PlanState :=
  { st with
    wantedEdges := st.wantedEdges + 1,
    commandEdges := st.commandEdges + (if (g.edge e).phony then 0 else 1) }

mutual

/-- Embedding of Plan::AddSubTarget (build.cc 113-164), fuel-indexed; the
dyndep_walk set pointer is modelled as an optional list.  The four
components of the result are the new state, the error string, the dyndep
walk set and the boolean return value. -/
def addSubTarget (g : Graph) : Nat → PlanState → Nat → Option Nat → String →
    Option (List Nat) → Option (PlanState × String × Option (List Nat) × Bool)
  | 0, _, _, _, _, _ => none
  | fuel + 1, st, n, dependent, err, ddw =>
    match (g.node n).inEdge with
    | none =>
      if st.dirty n = true ∧ (g.node n).genByDepLoader = false then
        let referenced :=
          match dependent with
          | some d => ", needed by " ++ (g.node d).path ++ ","
          | none => ""
        some (st, (g.node n).path ++ referenced ++ " missing and no known rule to make it",
          ddw, false)
      else some (st, err, ddw, false)
    | some e =>
      if st.outputsReady e = true then some (st, err, ddw, false)
      else
        let ins := wantInsert st.want e
        let st1 := { st with want := ins.1 }
        let found := ins.2.1
        let cur := ins.2.2
        if ddw.isSome = true ∧ cur = Want.toFinish then some (st1, err, ddw, false)
        else
          let st2 :=
            if st1.dirty n = true ∧ cur = Want.nothing then
              edgeWanted g { st1 with want := wantSet st1.want e Want.toStart } e
            else st1
          let ddw2 := ddw.map (fun l => if e ∈ l then l else e :: l)
          if found = true then some (st2, err, ddw2, true)
          else addSubList g fuel st2 (g.edge e).inputs n err ddw2

/-- The input-recursion loop of Plan::AddSubTarget (build.cc 157-161). -/
def addSubList (g : Graph) : Nat → PlanState → List Nat → Nat → String →
    Option (List Nat) → Option (PlanState × String × Option (List Nat) × Bool)
  | 0, _, _, _, _, _ => none
  | _ + 1, st, [], _, err, ddw => some (st, err, ddw, true)
  | fuel + 1, st, i :: rest, parent, err, ddw =>
    match addSubTarget g fuel st i (some parent) err ddw with
    | none => none
    | some (st2, err2, ddw2, ok) =>
      if ok = false ∧ ¬ err2 = "" then some (st2, err2, ddw2, false)
      else addSubList g fuel st2 rest parent err2 ddw2
end

/-- Embedding of Plan::AddTarget (build.cc 108-111). -/
def addTarget (g : Graph) (fuel : Nat) (st : PlanState) (t : Nat) (err : String) :
    Option (PlanState × String × Bool) :=
  let st1 := { st with targets := st.targets ++ [t] }
  match addSubTarget g fuel st1 t none err none with
  | none => none
  | some (st2, err2, _, ok) => some (st2, err2, ok)

/-! Lemmas about the want association list. -/

theorem wantInsert_find_some {w : List (Nat × Want)} {e : Nat} {v : Want}
    (h : wantFind w e = some v) : wantInsert w e = (w, true, v) := by
  induction w with
  | nil => simp [wantFind] at h
  | cons p rest ih =>
    obtain ⟨k, v0⟩ := p
    by_cases hk : e = k
    · simp [wantFind, hk] at h
      simp [wantInsert, hk, h]
    · simp [wantFind, hk] at h
      simp [wantInsert, hk, ih h]

theorem wantInsert_find_none {w : List (Nat × Want)} {e : Nat}
    (h : wantFind w e = none) : wantInsert w e = (w ++ [(e, Want.nothing)], false, Want.nothing) := by
  induction w with
  | nil => simp [wantInsert]
  | cons p rest ih =>
    obtain ⟨k, v0⟩ := p
    by_cases hk : e = k
    · simp [wantFind, hk] at h
    · simp [wantFind, hk] at h
      simp [wantInsert, hk, ih h]

theorem wantFind_append_sing {w : List (Nat × Want)} {x e : Nat} {v : Want} :
    wantFind (w ++ [(e, v)]) x =
      match wantFind w x with
      | some v0 => some v0
      | none => if x = e then some v else none := by
  induction w with
  | nil => simp [wantFind]
  | cons p rest ih =>
    obtain ⟨k, v0⟩ := p
    by_cases hk : x = k <;> simp [wantFind, hk, ih]

theorem wantSet_cons (k : Nat) (v1 : Want) (rest : List (Nat × Want)) (e : Nat) (v : Want) :
    wantSet ((k, v1) :: rest) e v = (if k = e then (k, v) else (k, v1)) :: wantSet rest e v := rfl

theorem wantFind_set_self {w : List (Nat × Want)} {e : Nat} {v0 : Want}
    (h : wantFind w e = some v0) (v : Want) : wantFind (wantSet w e v) e = some v := by
  induction w with
  | nil => simp [wantFind] at h
  | cons p rest ih =>
    obtain ⟨k, v1⟩ := p
    rw [wantSet_cons]
    by_cases hk : e = k
    · rw [if_pos hk.symm]
      simp [wantFind, hk]
    · rw [if_neg (fun hh => hk hh.symm)]
      simp only [wantFind, if_neg hk] at h ⊢
      exact ih h

theorem wantFind_set_other {w : List (Nat × Want)} {e x : Nat} {v : Want}
    (h : ¬ x = e) : wantFind (wantSet w e v) x = wantFind w x := by
  induction w with
  | nil => rfl
  | cons p rest ih =>
    obtain ⟨k, v1⟩ := p
    rw [wantSet_cons]
    by_cases hke : k = e
    · rw [if_pos hke]
      have hxk : ¬ x = k := fun hh => h (hh.trans hke)
      simp only [wantFind, if_neg hxk]
      exact ih
    · rw [if_neg hke]
      by_cases hxk : x = k
      · simp [wantFind, hxk]
      · simp only [wantFind, if_neg hxk]
        exact ih

/-- The fields of the Plan state that the AddSubTarget family never writes. -/
def sameNonWant (st st2 : PlanState) : Prop :=
  st2.targets = st.targets ∧ st2.ready = st.ready ∧ st2.dirty = st.dirty ∧
    st2.outputsReady = st.outputsReady ∧ st2.cpw = st.cpw ∧ st2.pools = st.pools

theorem sameNonWant_refl (st : PlanState) : sameNonWant st st :=
  ⟨rfl, rfl, rfl, rfl, rfl, rfl⟩

theorem sameNonWant_trans {a b c : PlanState} (h1 : sameNonWant a b)
    (h2 : sameNonWant b c) : sameNonWant a c := by
  obtain ⟨x1, x2, x3, x4, x5, x6⟩ := h1
  obtain ⟨y1, y2, y3, y4, y5, y6⟩ := h2
  exact ⟨y1.trans x1, y2.trans x2, y3.trans x3, y4.trans x4, y5.trans x5, y6.trans x6⟩

/-- Want-map evolution under AddSubTarget: entries are never removed, and a
value changes only by the kWantNothing to kWantToStart promotion. -/
def wantMono (w w2 : List (Nat × Want)) : Prop :=
  ∀ x v, wantFind w x = some v →
    wantFind w2 x = some v ∨ (v = Want.nothing ∧ wantFind w2 x = some Want.toStart)

theorem wantMono_refl (w : List (Nat × Want)) : wantMono w w :=
  fun _ _ h => Or.inl h

theorem wantMono_trans {a b c : List (Nat × Want)} (h1 : wantMono a b)
    (h2 : wantMono b c) : wantMono a c := by
  intro x v hv
  rcases h1 x v hv with h | ⟨hv0, h⟩
  · exact h2 x v h
  · rcases h2 x Want.toStart h with h' | ⟨h0, _⟩
    · exact Or.inr ⟨hv0, h'⟩
    · cases h0

theorem addSub_frame_mono (g : Graph) : ∀ fuel : Nat,
    (∀ st n dep err ddw st2 err2 ddw2 ok,
      addSubTarget g fuel st n dep err ddw = some (st2, err2, ddw2, ok) →
        sameNonWant st st2 ∧ wantMono st.want st2.want) ∧
    (∀ st l parent err ddw st2 err2 ddw2 ok,
      addSubList g fuel st l parent err ddw = some (st2, err2, ddw2, ok) →
        sameNonWant st st2 ∧ wantMono st.want st2.want) := by
  intro fuel
  induction fuel with
  | zero =>
    constructor <;> intro st
    · intro n dep err ddw st2 err2 ddw2 ok h
      simp [addSubTarget] at h
    · intro l parent err ddw st2 err2 ddw2 ok h
      simp [addSubList] at h
  | succ f ih =>
    obtain ⟨ihT, ihL⟩ := ih
    constructor
    · intro st n dep err ddw st2 err2 ddw2 ok h
      simp only [addSubTarget] at h
      cases hie : (g.node n).inEdge with
      | none =>
        simp only [hie] at h
        split_ifs at h <;>
          (simp only [Option.some.injEq, Prod.mk.injEq] at h
           obtain ⟨rfl, -, -, -⟩ := h
           exact ⟨sameNonWant_refl st, wantMono_refl st.want⟩)
      | some e =>
        simp only [hie] at h
        by_cases hor : st.outputsReady e = true
        · simp only [hor, if_true, Option.some.injEq, Prod.mk.injEq] at h
          obtain ⟨rfl, -, -, -⟩ := h
          exact ⟨sameNonWant_refl st, wantMono_refl st.want⟩
        · rw [if_neg hor] at h
          cases hf : wantFind st.want e with
          | some v0 =>
            rw [wantInsert_find_some hf] at h
            dsimp only at h
            have hmonoP : wantMono st.want (wantSet st.want e Want.toStart) ∨
                ¬ v0 = Want.nothing := by
              by_cases hv0 : v0 = Want.nothing
              · left
                intro x v hv
                by_cases hx : x = e
                · subst hx
                  right
                  rw [hf] at hv
                  obtain rfl : v0 = v := by injection hv
                  exact ⟨hv0, wantFind_set_self hf Want.toStart⟩
                · left
                  rw [wantFind_set_other hx]
                  exact hv
              · right
                exact hv0
            by_cases hddw : ddw.isSome = true ∧ v0 = Want.toFinish
            · rw [if_pos hddw] at h
              simp only [Option.some.injEq, Prod.mk.injEq] at h
              obtain ⟨rfl, -, -, -⟩ := h
              exact ⟨⟨rfl, rfl, rfl, rfl, rfl, rfl⟩, wantMono_refl st.want⟩
            · rw [if_neg hddw, if_pos rfl] at h
              simp only [Option.some.injEq, Prod.mk.injEq] at h
              obtain ⟨rfl, -, -, -⟩ := h
              constructor
              · split_ifs <;> exact ⟨rfl, rfl, rfl, rfl, rfl, rfl⟩
              · split_ifs with hp
                · rcases hmonoP with hm | hm
                  · exact hm
                  · exact absurd hp.2 hm
                · exact wantMono_refl st.want
          | none =>
            rw [wantInsert_find_none hf] at h
            dsimp only at h
            have hddwF : ¬ (ddw.isSome = true ∧ Want.nothing = Want.toFinish) := by
              rintro ⟨-, hc⟩
              cases hc
            rw [if_neg hddwF] at h
            have hfoundF : ¬ (false = true) := by simp
            rw [if_neg hfoundF] at h
            have hmono1 : wantMono st.want (st.want ++ [(e, Want.nothing)]) := by
              intro x v hv
              left
              rw [wantFind_append_sing, hv]
            have hmono2 : wantMono st.want
                (if st.dirty n = true ∧ Want.nothing = Want.nothing then
                  wantSet (st.want ++ [(e, Want.nothing)]) e Want.toStart
                else st.want ++ [(e, Want.nothing)]) := by
              split_ifs with hp
              · intro x v hv
                by_cases hx : x = e
                · subst hx
                  rw [hf] at hv
                  cases hv
                · left
                  rw [wantFind_set_other hx, wantFind_append_sing, hv]
              · exact hmono1
            have hsame2 : sameNonWant st
                (if st.dirty n = true ∧ Want.nothing = Want.nothing then
                  edgeWanted g { st with want := wantSet (st.want ++ [(e, Want.nothing)]) e Want.toStart } e
                else { st with want := st.want ++ [(e, Want.nothing)] }) := by
              split_ifs <;> exact ⟨rfl, rfl, rfl, rfl, rfl, rfl⟩
            have hwant2 :
                (if st.dirty n = true ∧ Want.nothing = Want.nothing then
                  edgeWanted g { st with want := wantSet (st.want ++ [(e, Want.nothing)]) e Want.toStart } e
                else { st with want := st.want ++ [(e, Want.nothing)] }).want =
                (if st.dirty n = true ∧ Want.nothing = Want.nothing then
                  wantSet (st.want ++ [(e, Want.nothing)]) e Want.toStart
                else st.want ++ [(e, Want.nothing)]) := by
              split_ifs <;> rfl
            have hrec := ihL _ _ _ _ _ _ _ _ _ h
            refine ⟨sameNonWant_trans hsame2 hrec.1, ?_⟩
            refine wantMono_trans ?_ hrec.2
            rw [hwant2]
            exact hmono2
    · intro st l parent err ddw st2 err2 ddw2 ok h
      cases l with
      | nil =>
        simp only [addSubList, Option.some.injEq, Prod.mk.injEq] at h
        obtain ⟨rfl, -, -, -⟩ := h
        exact ⟨sameNonWant_refl st, wantMono_refl st.want⟩
      | cons i rest =>
        simp only [addSubList] at h
        cases hr : addSubTarget g f st i (some parent) err ddw with
        | none => rw [hr] at h; cases h
        | some r =>
          obtain ⟨sta, erra, ddwa, oka⟩ := r
          rw [hr] at h
          have hfirst := ihT _ _ _ _ _ _ _ _ _ hr
          dsimp only at h
          split_ifs at h with hc
          · simp only [Option.some.injEq, Prod.mk.injEq] at h
            obtain ⟨rfl, -, -, -⟩ := h
            exact hfirst
          · have hrest := ihL _ _ _ _ _ _ _ _ _ h
            exact ⟨sameNonWant_trans hfirst.1 hrest.1, wantMono_trans hfirst.2 hrest.2⟩

theorem missing_msg_ne_empty (a : String) :
    ¬ a ++ " missing and no known rule to make it" = "" := by
  intro h
  have hlen := congrArg String.length h
  rw [String.length_append] at hlen
  have h2 : (" missing and no known rule to make it" : String).length = 37 := rfl
  have h3 : ("" : String).length = 0 := rfl
  omega

/-- The recursion loop of AddSubTarget returns false only when the error
string it hands back is non-empty (the check at build.cc line 159). -/
theorem addSubList_false_err (g : Graph) : ∀ fuel st l parent err ddw st2 err2 ddw2,
    addSubList g fuel st l parent err ddw = some (st2, err2, ddw2, false) →
      ¬ err2 = "" := by
  intro fuel
  induction fuel with
  | zero =>
    intro st l parent err ddw st2 err2 ddw2 h
    simp [addSubList] at h
  | succ f ih =>
    intro st l parent err ddw st2 err2 ddw2 h
    cases l with
    | nil => simp [addSubList] at h
    | cons i rest =>
      simp only [addSubList] at h
      cases hr : addSubTarget g f st i (some parent) err ddw with
      | none => rw [hr] at h; cases h
      | some r =>
        obtain ⟨sta, erra, ddwa, oka⟩ := r
        rw [hr] at h
        dsimp only at h
        split_ifs at h with hc
        · simp only [Option.some.injEq, Prod.mk.injEq] at h
          obtain ⟨-, rfl, -, -⟩ := h
          exact hc.2
        · exact ih _ _ _ _ _ _ _ _ h

/-- The condition claim C10 states for a false return of AddTarget with an
empty error string: a clean leaf, or a producing edge already ready. -/
def requiresNoWorkClaimed (g : Graph) (st : PlanState) (t : Nat) : Bool :=
  match (g.node t).inEdge with
  | none => !(st.dirty t)
  | some e => st.outputsReady e

/-- The condition actually implemented: a leaf that is clean or generated by
the dep loader, or a producing edge already ready (build.cc 116-133). -/
def requiresNoWork (g : Graph) (st : PlanState) (t : Nat) : Bool :=
  match (g.node t).inEdge with
  | none => !(st.dirty t) || (g.node t).genByDepLoader
  | some e => st.outputsReady e

def planState0 : PlanState :=
  ⟨[], [], 0, 0, [], fun _ => false, fun _ => false, fun _ => 0, fun _ => ⟨0, []⟩⟩

def g10 : Graph := ⟨[⟨"x", none, [], true, false, 0⟩], [], []⟩

def st10 : PlanState := { planState0 with dirty := fun _ => true }

/-- C10 counterexample: node 0 of g10 is a dirty leaf generated by the dep
loader.  AddTarget returns false with an empty error, yet the node is
neither a clean leaf nor has a ready producing edge, refuting `exactly
when`. -/
theorem addTarget_emptyErr_counterexample :
    (addTarget g10 5 st10 0 "").map (fun r => (r.2.1, r.2.2)) = some ("", false) ∧
      requiresNoWorkClaimed g10 st10 0 = false := by
  constructor
  · rfl
  · rfl

/-- C10 amended: starting from an empty error string, AddTarget returns
false with the error still empty exactly when the target is a leaf that is
clean or generated by the dep loader, or its producing edge already has
outputs_ready. -/
theorem addTarget_false_empty_err (g : Graph) (fuel : Nat) (st : PlanState) (t : Nat)
    (st2 : PlanState) (err2 : String)
    (h : addTarget g (fuel + 1) st t "" = some (st2, err2, false)) :
    err2 = "" ↔ requiresNoWork g st t = true := by
  unfold addTarget at h
  dsimp only at h
  cases hr : addSubTarget g (fuel + 1) { st with targets := st.targets ++ [t] } t none "" none with
  | none => rw [hr] at h; cases h
  | some r =>
    obtain ⟨sta, erra, ddwa, oka⟩ := r
    rw [hr] at h
    dsimp only at h
    simp only [Option.some.injEq, Prod.mk.injEq] at h
    obtain ⟨-, rfl, rfl⟩ := h
    simp only [addSubTarget] at hr
    unfold requiresNoWork
    cases hie : (g.node t).inEdge with
    | none =>
      simp only [hie] at hr
      split_ifs at hr with hc
      · simp only [Option.some.injEq, Prod.mk.injEq] at hr
        obtain ⟨-, rfl, -, -⟩ := hr
        constructor
        · intro hcontra
          exact absurd hcontra (missing_msg_ne_empty _)
        · intro hcond
          have hd : st.dirty t = true := hc.1
          have hg : (g.node t).genByDepLoader = false := hc.2
          rw [hd, hg] at hcond
          simp at hcond
      · simp only [Option.some.injEq, Prod.mk.injEq] at hr
        obtain ⟨-, rfl, -, -⟩ := hr
        constructor
        · intro hx
          by_cases hd : st.dirty t = true
          · by_cases hg : (g.node t).genByDepLoader = true
            · simp [hg]
            · exact absurd ⟨hd, by simpa using hg⟩ hc
          · simp [by simpa using hd]
        · intro hx
          rfl
    | some e =>
      simp only [hie] at hr
      by_cases hor : ({ st with targets := st.targets ++ [t] } : PlanState).outputsReady e = true
      · rw [if_pos hor] at hr
        simp only [Option.some.injEq, Prod.mk.injEq] at hr
        obtain ⟨-, rfl, -, -⟩ := hr
        have : st.outputsReady e = true := hor
        simp [this]
      · rw [if_neg hor] at hr
        have hwne : ¬ erra = "" := by
          cases hf : wantFind ({ st with targets := st.targets ++ [t] } : PlanState).want e with
          | some v0 =>
            rw [wantInsert_find_some hf] at hr
            dsimp only at hr
            by_cases hddw : (none : Option (List Nat)).isSome = true ∧ v0 = Want.toFinish
            · exact absurd hddw.1 (by simp)
            · rw [if_neg hddw, if_pos rfl] at hr
              simp only [Option.some.injEq, Prod.mk.injEq] at hr
              obtain ⟨-, -, -, hfalse⟩ := hr
              cases hfalse
          | none =>
            rw [wantInsert_find_none hf] at hr
            dsimp only at hr
            have hddwF : ¬ ((none : Option (List Nat)).isSome = true ∧
                Want.nothing = Want.toFinish) := by
              rintro ⟨hc1, -⟩
              simp at hc1
            rw [if_neg hddwF] at hr
            have hfoundF : ¬ (false = true) := by simp
            rw [if_neg hfoundF] at hr
            exact addSubList_false_err g _ _ _ _ _ _ _ _ _ hr
        have hsor : st.outputsReady e = true ↔ False := by
          simp only [iff_false]
          exact hor
        simp only [hsor, iff_false]
        exact hwne

/-- Witness for the amended C10 theorem at a concrete clean leaf. -/
def g11 : Graph := ⟨[⟨"y", none, [], false, false, 0⟩], [], []⟩

theorem addTarget_false_empty_err_witness :
    ("" = "" ↔ requiresNoWork g11 planState0 0 = true) :=
  addTarget_false_empty_err g11 3 planState0 0
    { planState0 with targets := planState0.targets ++ [0] } "" rfl

def g8 : Graph := ⟨[⟨"t", none, [], false, false, 0⟩], [], []⟩

/-- C8 counterexample: AddTarget pushes the target onto targets_ before
anything else (build.cc 109), so a second invocation leaves a duplicate in
the targets sequence and the state is not identical to a single
invocation. -/
theorem addTarget_twice_counterexample :
    ((addTarget g8 3 planState0 0 "").bind (fun r => addTarget g8 3 r.1 0 r.2.1)).map
        (fun r => r.1.targets) = some [0, 0] ∧
      (addTarget g8 3 planState0 0 "").map (fun r => r.1.targets) = some [0] ∧
      ¬ ([0, 0] : List Nat) = [0] := by
  refine ⟨rfl, rfl, by decide⟩

/-- C8 amended: a second AddTarget on the same target only appends a duplicate
entry to the targets sequence; the want map, the counters, the ready queue
and the error string are unchanged relative to the state after the first
invocation. -/
theorem addTarget_twice_amended (g : Graph) (fuel : Nat) (st : PlanState) (t : Nat)
    (err0 err1 err2 : String) (st1 st2 : PlanState) (ok1 ok2 : Bool)
    (h1 : addTarget g (fuel + 1) st t err0 = some (st1, err1, ok1))
    (h2 : addTarget g (fuel + 1) st1 t err1 = some (st2, err2, ok2)) :
    st2 = { st1 with targets := st1.targets ++ [t] } ∧ err2 = err1 := by
  unfold addTarget at h1 h2
  dsimp only at h1 h2
  cases hr1 : addSubTarget g (fuel + 1) { st with targets := st.targets ++ [t] } t none err0 none with
  | none => rw [hr1] at h1; cases h1
  | some r1 =>
  obtain ⟨sta1, erra1, ddwa1, oka1⟩ := r1
  rw [hr1] at h1
  dsimp only at h1
  simp only [Option.some.injEq, Prod.mk.injEq] at h1
  obtain ⟨rfl, rfl, rfl⟩ := h1
  cases hr2 : addSubTarget g (fuel + 1) { sta1 with targets := sta1.targets ++ [t] } t none erra1 none with
  | none => rw [hr2] at h2; cases h2
  | some r2 =>
  obtain ⟨sta2, erra2, ddwa2, oka2⟩ := r2
  rw [hr2] at h2
  dsimp only at h2
  simp only [Option.some.injEq, Prod.mk.injEq] at h2
  obtain ⟨rfl, rfl, rfl⟩ := h2
  have hfm1 := ((addSub_frame_mono g (fuel + 1)).1 _ _ _ _ _ _ _ _ _ hr1)
  have hdirty1 : sta1.dirty = st.dirty := hfm1.1.2.2.1
  have hready1 : sta1.outputsReady = st.outputsReady := hfm1.1.2.2.2.1
  simp only [addSubTarget] at hr2
  cases hie : (g.node t).inEdge with
  | none =>
    simp only [hie] at hr2
    split_ifs at hr2 with hc2
    · -- the dirty missing-source leaf: the first call produced the same message
      simp only [Option.some.injEq, Prod.mk.injEq] at hr2
      obtain ⟨rfl, rfl, -, -⟩ := hr2
      refine ⟨rfl, ?_⟩
      -- recompute the first call on the same branch
      simp only [addSubTarget, hie] at hr1
      have hc1 : st.dirty t = true ∧ (g.node t).genByDepLoader = false := by
        refine ⟨?_, hc2.2⟩
        have := hc2.1
        rw [show (sta1.dirty t = true) = (st.dirty t = true) from by rw [hdirty1]] at this
        exact this
      rw [if_pos hc1] at hr1
      simp only [Option.some.injEq, Prod.mk.injEq] at hr1
      exact hr1.2.1
    · simp only [Option.some.injEq, Prod.mk.injEq] at hr2
      obtain ⟨rfl, rfl, -, -⟩ := hr2
      exact ⟨rfl, rfl⟩
  | some e =>
    simp only [hie] at hr2
    by_cases hor2 : sta1.outputsReady e = true
    · rw [if_pos hor2] at hr2
      simp only [Option.some.injEq, Prod.mk.injEq] at hr2
      obtain ⟨rfl, rfl, -, -⟩ := hr2
      exact ⟨rfl, rfl⟩
    · rw [if_neg hor2] at hr2
      -- the first call also went down the not-ready path and left e in want
      have hor1 : ¬ st.outputsReady e = true := by
        rw [← hready1]
        exact hor2
      have hpost : ∃ w1, wantFind sta1.want e = some w1 ∧
          (st.dirty t = true → ¬ w1 = Want.nothing) := by
        simp only [addSubTarget, hie] at hr1
        rw [if_neg hor1] at hr1
        cases hf1 : wantFind st.want e with
        | some v0 =>
          rw [wantInsert_find_some hf1] at hr1
          dsimp only at hr1
          have hddwF : ¬ ((none : Option (List Nat)).isSome = true ∧ v0 = Want.toFinish) := by
            rintro ⟨hc, -⟩
            simp at hc
          rw [if_neg hddwF, if_pos (rfl : (true : Bool) = true)] at hr1
          by_cases hp1 : st.dirty t = true ∧ v0 = Want.nothing
          · rw [if_pos hp1] at hr1
            simp only [Option.some.injEq, Prod.mk.injEq] at hr1
            obtain ⟨rfl, -, -, -⟩ := hr1
            exact ⟨Want.toStart, wantFind_set_self hf1 Want.toStart, fun _ hn => by cases hn⟩
          · rw [if_neg hp1] at hr1
            simp only [Option.some.injEq, Prod.mk.injEq] at hr1
            obtain ⟨rfl, -, -, -⟩ := hr1
            exact ⟨v0, hf1, fun hd hn => hp1 ⟨hd, hn⟩⟩
        | none =>
          rw [wantInsert_find_none hf1] at hr1
          dsimp only at hr1
          have hddwF : ¬ ((none : Option (List Nat)).isSome = true ∧
              Want.nothing = Want.toFinish) := by
            rintro ⟨hc, -⟩
            simp at hc
          rw [if_neg hddwF] at hr1
          have hfoundF : ¬ (false = true) := by simp
          rw [if_neg hfoundF] at hr1
          have hmonoL := ((addSub_frame_mono g fuel).2 _ _ _ _ _ _ _ _ _ hr1).2
          split_ifs at hr1 hmonoL with hp1
          · have hmid0 : wantFind (st.want ++ [(e, Want.nothing)]) e = some Want.nothing := by
              rw [wantFind_append_sing, hf1]
              simp
            have hmid : wantFind (wantSet (st.want ++ [(e, Want.nothing)]) e Want.toStart) e =
                some Want.toStart := wantFind_set_self hmid0 Want.toStart
            rcases hmonoL e Want.toStart hmid with hm | ⟨hcon, -⟩
            · exact ⟨Want.toStart, hm, fun _ hn => by cases hn⟩
            · cases hcon
          · have hmid : wantFind (st.want ++ [(e, Want.nothing)]) e = some Want.nothing := by
              rw [wantFind_append_sing, hf1]
              simp
            rcases hmonoL e Want.nothing hmid with hm | ⟨-, hm⟩
            · refine ⟨Want.nothing, hm, fun hd hn => ?_⟩
              exact hp1 ⟨hd, rfl⟩
            · exact ⟨Want.toStart, hm, fun _ hn => by cases hn⟩
      obtain ⟨w1, hw1, hw1d⟩ := hpost
      rw [wantInsert_find_some hw1] at hr2
      dsimp only at hr2
      have hddwF : ¬ ((none : Option (List Nat)).isSome = true ∧ w1 = Want.toFinish) := by
        rintro ⟨hc, -⟩
        simp at hc
      rw [if_neg hddwF] at hr2
      have hpF : ¬ (sta1.dirty t = true ∧ w1 = Want.nothing) := by
        rintro ⟨hd, hn⟩
        have hd' : st.dirty t = true := by rw [← hdirty1]; exact hd
        exact hw1d hd' hn
      rw [if_neg hpF, if_pos rfl] at hr2
      simp only [Option.some.injEq, Prod.mk.injEq] at hr2
      obtain ⟨rfl, rfl, -, -⟩ := hr2
      exact ⟨rfl, rfl⟩

/-! Part 4: pools (modelled from the spec, section 4.1, since state.h/state.cc
are not part of src/), ScheduleWork, FindWork and the
EdgeFinished/NodeFinished/EdgeMaybeReady recursion of build.cc 172-267. -/

/-- Modelled from the spec: Pool::ShouldDelayEdge. Spec 4.1: true when the
pool has a finite depth and the in-flight count would exceed it if one more
edge started. -/
def poolShouldDelay (depth : Nat) (ps : PoolState) : Bool :=
  !(depth = 0) && decide ((depth : Int) < ps.inflight + 1)

/-- Modelled from the spec: Pool::DelayEdge inserts into a queue ordered by
descending critical-path weight, ties broken by stable insertion order. -/
def delayInsert (cpw : Nat → Int) (e : Nat) : List Nat → List Nat
  | [] => [e]
  | d :: ds => if cpw d < cpw e then e :: d :: ds else d :: delayInsert cpw e ds

/-- Modelled from the spec: Pool::RetrieveReadyEdges pops from the delay
queue into the ready queue while capacity permits, charging the in-flight
counter for each released edge. -/
def retrieveTick (depth : Nat) : Nat → PoolState → List Nat → PoolState × List Nat
  | 0, ps, ready => (ps, ready)
  | fuel + 1, ps, ready =>
    match ps.delayed with
    | [] => (ps, ready)
    | d :: ds =>
      if depth = 0 ∨ ps.inflight + 1 ≤ (depth : Int) then
        retrieveTick depth fuel ⟨ps.inflight + 1, ds⟩ (ready ++ [d])
      else (ps, ready)

def poolRetrieve (depth : Nat) (ps : PoolState) (ready : List Nat) : PoolState × List Nat :=
  retrieveTick depth ps.delayed.length ps ready

def poolUpdate (pools : Nat → PoolState) (pid : Nat) (ps : PoolState) : Nat → PoolState :=
  fun i => if i = pid then ps else pools i

/-- Embedding of Plan::ScheduleWork (build.cc 181-201): a no-op on an entry
already in kWantToFinish; otherwise the kWantToStart entry transitions to
kWantToFinish and the edge is delayed in its pool or pushed into ready.
Calling it on a kWantNothing entry fails the C++ assert and is out of the
model (none). -/
def scheduleWork (g : Graph) (st : PlanState) (e : Nat) : Option PlanState :=
  match wantFind st.want e with
  | some Want.toFinish => some st
  | some Want.toStart =>
    let st1 := { st with want := wantSet st.want e Want.toFinish }
    let pid := (g.edge e).pool
    let ps := st1.pools pid
    if poolShouldDelay (g.poolDepth pid) ps = true then
      let ps1 : PoolState := ⟨ps.inflight, delayInsert st1.cpw e ps.delayed⟩
      let r := poolRetrieve (g.poolDepth pid) ps1 st1.ready
      some { st1 with pools := poolUpdate st1.pools pid r.1, ready := r.2 }
    else
      let ps2 : PoolState := ⟨ps.inflight + 1, ps.delayed⟩
      some { st1 with
        pools := poolUpdate st1.pools pid ps2,
        ready := st1.ready ++ [e] }
  | _ => none

/-- Pop of the highest-priority element of the ready queue (the
EdgePriorityQueue of build.h, keyed by critical-path weight; the first
element wins ties). -/
def popMax (cpw : Nat → Int) : List Nat → Option (Nat × List Nat)
  | [] => none
  | x :: xs =>
    match popMax cpw xs with
    | none => some (x, [])
    | some (y, ys) => if cpw x < cpw y then some (y, x :: ys) else some (x, xs)

/-- Embedding of Plan::FindWork (build.cc 172-179). -/
def findWork (st : PlanState) : Option (Nat × PlanState) :=
  match popMax st.cpw st.ready with
  | none => none
  | some (e, rest) => some (e, { st with ready := rest })

/-- Modelled from the spec: Edge::AllInputsReady (graph.h is not part of
src/): every input of the edge whose producing edge exists has that edge's
outputs ready. -/
def allInputsReady (g : Graph) (st : PlanState) (e : Nat) : Bool :=
  (g.edge e).inputs.all (fun n =>
    match (g.node n).inEdge with
    | none => true
    | some ie => st.outputsReady ie)

mutual

/-- Embedding of Plan::EdgeFinished (build.cc 203-229), fuel-indexed.  An
edge without a want entry fails the C++ assert (none); a node with dyndep
information pending leaves the modelled fragment (none). -/
def edgeFinished (g : Graph) : Nat → PlanState → Nat → Bool → String →
    Option (PlanState × String × Bool)
  | 0, _, _, _, _ => none
  | fuel + 1, st, e, success, err =>
    match wantFind st.want e with
    | none => none
    | some w =>
      let pid := (g.edge e).pool
      let psDec : PoolState := ⟨(st.pools pid).inflight - 1, (st.pools pid).delayed⟩
      let st1 :=
        if w = Want.nothing then st
        else { st with pools := poolUpdate st.pools pid psDec }
      let r := poolRetrieve (g.poolDepth pid) (st1.pools pid) st1.ready
      let st2 := { st1 with pools := poolUpdate st1.pools pid r.1, ready := r.2 }
      if success = false then some (st2, err, true)
      else
        let st3 :=
          if w = Want.nothing then st2
          else { st2 with wantedEdges := st2.wantedEdges - 1 }
        let st4 := { st3 with
          want := wantErase st3.want e,
          outputsReady := fun i => if i = e then true else st3.outputsReady i }
        nodeFinishedList g fuel st4 (g.edge e).outputs err

/-- The output loop of Plan::EdgeFinished (build.cc 223-227). -/
def nodeFinishedList (g : Graph) : Nat → PlanState → List Nat → String →
    Option (PlanState × String × Bool)
  | 0, _, _, _ => none
  | _ + 1, st, [], err => some (st, err, true)
  | fuel + 1, st, o :: os, err =>
    match nodeFinished g fuel st o err with
    | none => none
    | some (st2, err2, ok) =>
      if ok = false then some (st2, err2, false)
      else nodeFinishedList g fuel st2 os err2

/-- Embedding of Plan::NodeFinished (build.cc 231-252).  The dyndep path
delegates to the Builder and the external scan, outside the modelled
fragment. -/
def nodeFinished (g : Graph) : Nat → PlanState → Nat → String →
    Option (PlanState × String × Bool)
  | 0, _, _, _ => none
  | fuel + 1, st, n, err =>
    if (g.node n).dyndepPending = true then none
    else edgeMaybeReadyList g fuel st (g.node n).outEdges err

/-- The out-edge loop of Plan::NodeFinished (build.cc 241-250). -/
def edgeMaybeReadyList (g : Graph) : Nat → PlanState → List Nat → String →
    Option (PlanState × String × Bool)
  | 0, _, _, _ => none
  | _ + 1, st, [], err => some (st, err, true)
  | fuel + 1, st, oe :: oes, err =>
    match wantFind st.want oe with
    | none => edgeMaybeReadyList g fuel st oes err
    | some _ =>
      match edgeMaybeReady g fuel st oe err with
      | none => none
      | some (st2, err2, ok) =>
        if ok = false then some (st2, err2, false)
        else edgeMaybeReadyList g fuel st2 oes err2

/-- Embedding of Plan::EdgeMaybeReady (build.cc 254-267). -/
def edgeMaybeReady (g : Graph) : Nat → PlanState → Nat → String →
    Option (PlanState × String × Bool)
  | 0, _, _, _ => none
  | fuel + 1, st, e, err =>
    if allInputsReady g st e = true then
      match wantFind st.want e with
      | none => none
      | some w =>
        if w = Want.nothing then edgeFinished g fuel st e true err
        else
          match scheduleWork g st e with
          | none => none
          | some st2 => some (st2, err, true)
    else some (st, err, true)

end

/-! Lemmas about counts, erasure and the pool queues. -/

def wantNodup (w : List (Nat × Want)) : Prop := (w.map Prod.fst).Nodup

theorem countWanted_cons (k : Nat) (v : Want) (rest : List (Nat × Want)) :
    countWanted ((k, v) :: rest) =
      (if v = Want.nothing then 0 else 1) + countWanted rest := by
  by_cases hv : v = Want.nothing
  · simp [countWanted, List.filter_cons, hv]
  · simp [countWanted, List.filter_cons, hv]
    omega

theorem wantErase_cons (k : Nat) (v : Want) (rest : List (Nat × Want)) (e : Nat) :
    wantErase ((k, v) :: rest) e =
      if k = e then wantErase rest e else (k, v) :: wantErase rest e := by
  simp only [wantErase, List.filter_cons]
  by_cases hk : k = e <;> simp [hk]

theorem wantFind_erase (w : List (Nat × Want)) (e x : Nat) :
    wantFind (wantErase w e) x = if x = e then none else wantFind w x := by
  induction w with
  | nil => simp [wantErase, wantFind]
  | cons p rest ih =>
    obtain ⟨k, v⟩ := p
    rw [wantErase_cons]
    by_cases hk : k = e
    · rw [if_pos hk, ih]
      by_cases hx : x = e
      · simp [hx]
      · rw [if_neg hx, if_neg hx]
        have hxk : ¬ x = k := fun hh => hx (hh.trans hk)
        simp [wantFind, hxk]
    · rw [if_neg hk]
      by_cases hx : x = k
      · have hxe : ¬ x = e := fun hh => hk (hx.symm.trans hh)
        simp [wantFind, hx, hxe, hk]
      · simp only [wantFind, if_neg hx]
        rw [ih]

theorem wantErase_not_mem {w : List (Nat × Want)} {e : Nat}
    (h : e ∉ w.map Prod.fst) : wantErase w e = w := by
  induction w with
  | nil => rfl
  | cons p rest ih =>
    obtain ⟨k, v⟩ := p
    simp only [List.map_cons, List.mem_cons] at h
    push_neg at h
    rw [wantErase_cons, if_neg (fun hh => h.1 hh.symm), ih h.2]

theorem wantSet_not_mem {w : List (Nat × Want)} {e : Nat} (v : Want)
    (h : e ∉ w.map Prod.fst) : wantSet w e v = w := by
  induction w with
  | nil => rfl
  | cons p rest ih =>
    obtain ⟨k, v0⟩ := p
    simp only [List.map_cons, List.mem_cons] at h
    push_neg at h
    rw [wantSet_cons]
    have hk : ¬ k = e := fun hh => h.1 hh.symm
    rw [if_neg hk, ih h.2]

theorem countWanted_erase {w : List (Nat × Want)} {e : Nat} {v : Want}
    (hnd : wantNodup w) (hf : wantFind w e = some v) :
    countWanted (wantErase w e) =
      countWanted w - (if v = Want.nothing then 0 else 1) := by
  induction w with
  | nil => simp [wantFind] at hf
  | cons p rest ih =>
    obtain ⟨k, v0⟩ := p
    have hnd' : k ∉ rest.map Prod.fst ∧ (rest.map Prod.fst).Nodup := by
      simpa [wantNodup, List.nodup_cons] using hnd
    rw [wantErase_cons]
    by_cases hk : k = e
    · subst hk
      have hv0 : v0 = v := by simpa [wantFind] using hf
      subst hv0
      rw [if_pos rfl, wantErase_not_mem hnd'.1, countWanted_cons]
      split_ifs <;> omega
    · rw [if_neg hk]
      have hf' : wantFind rest e = some v := by
        have hek : ¬ e = k := fun hh => hk hh.symm
        simpa [wantFind, hek] using hf
      rw [countWanted_cons, countWanted_cons, ih hnd'.2 hf']
      ring

theorem countWanted_set_finish {w : List (Nat × Want)} {e : Nat}
    (hnd : wantNodup w) (hf : wantFind w e = some Want.toStart) :
    countWanted (wantSet w e Want.toFinish) = countWanted w := by
  induction w with
  | nil => simp [wantFind] at hf
  | cons p rest ih =>
    obtain ⟨k, v0⟩ := p
    have hnd' : k ∉ rest.map Prod.fst ∧ (rest.map Prod.fst).Nodup := by
      simpa [wantNodup, List.nodup_cons] using hnd
    rw [wantSet_cons]
    by_cases hk : k = e
    · subst hk
      have hv0 : v0 = Want.toStart := by simpa [wantFind] using hf
      subst hv0
      rw [if_pos rfl, wantSet_not_mem _ hnd'.1, countWanted_cons, countWanted_cons]
      simp
    · rw [if_neg hk]
      have hf' : wantFind rest e = some Want.toStart := by
        have hek : ¬ e = k := fun hh => hk hh.symm
        simpa [wantFind, hek] using hf
      rw [countWanted_cons, countWanted_cons, ih hnd'.2 hf']

theorem wantNodup_erase {w : List (Nat × Want)} (e : Nat) (h : wantNodup w) :
    wantNodup (wantErase w e) := by
  have hsub : List.Sublist (wantErase w e) w := List.filter_sublist w
  exact List.Nodup.sublist (List.Sublist.map Prod.fst hsub) h

theorem wantSet_keys (w : List (Nat × Want)) (e : Nat) (v : Want) :
    (wantSet w e v).map Prod.fst = w.map Prod.fst := by
  induction w with
  | nil => rfl
  | cons p rest ih =>
    obtain ⟨k, v0⟩ := p
    rw [wantSet_cons]
    by_cases hk : k = e <;> simp [hk, ih]

theorem wantNodup_set {w : List (Nat × Want)} (e : Nat) (v : Want) (h : wantNodup w) :
    wantNodup (wantSet w e v) := by
  unfold wantNodup
  rw [wantSet_keys]
  exact h

/-- Decomposition of the pool release loop: the released edges are appended
to ready in order and removed from the front of the delay queue. -/
theorem retrieveTick_spec (depth : Nat) : ∀ fuel ps ready,
    ∃ moved, (retrieveTick depth fuel ps ready).2 = ready ++ moved ∧
      ps.delayed = moved ++ (retrieveTick depth fuel ps ready).1.delayed := by
  intro fuel
  induction fuel with
  | zero => intro ps ready; exact ⟨[], by simp [retrieveTick]⟩
  | succ f ih =>
    intro ps ready
    cases hd : ps.delayed with
    | nil => exact ⟨[], by simp [retrieveTick, hd]⟩
    | cons d ds =>
      simp only [retrieveTick, hd]
      split_ifs with hc
      · obtain ⟨moved, h1, h2⟩ := ih ⟨ps.inflight + 1, ds⟩ (ready ++ [d])
        exact ⟨d :: moved, by simpa using h1, by simpa using h2⟩
      · exact ⟨[], by simp, hd.symm⟩

/-- State components of ScheduleWork: only the want value of the scheduled
edge, the pools and the ready queue change (build.cc 181-201). -/
theorem scheduleWork_post {g : Graph} {st st2 : PlanState} {e : Nat}
    (h : scheduleWork g st e = some st2) :
    st2.targets = st.targets ∧ st2.dirty = st.dirty ∧ st2.cpw = st.cpw ∧
      st2.outputsReady = st.outputsReady ∧ st2.commandEdges = st.commandEdges ∧
      st2.wantedEdges = st.wantedEdges ∧
      (∀ x, wantFind st.want x = none → wantFind st2.want x = none) ∧
      (wantNodup st.want → wantNodup st2.want) ∧
      (wantNodup st.want → countWanted st2.want = countWanted st.want) := by
  unfold scheduleWork at h
  cases hw : wantFind st.want e with
  | none => rw [hw] at h; cases h
  | some w =>
    rw [hw] at h
    cases w with
    | nothing => exact absurd h (by simp)
    | toFinish =>
      simp only [Option.some.injEq] at h
      subst h
      exact ⟨rfl, rfl, rfl, rfl, rfl, rfl, fun x hx => hx, fun hh => hh, fun _ => rfl⟩
    | toStart =>
      dsimp only at h
      have hfind : ∀ x, wantFind st.want x = none →
          wantFind (wantSet st.want e Want.toFinish) x = none := by
        intro x hx
        by_cases hxe : x = e
        · subst hxe
          rw [hx] at hw
          cases hw
        · rw [wantFind_set_other hxe]
          exact hx
      have hnd : wantNodup st.want → wantNodup (wantSet st.want e Want.toFinish) :=
        wantNodup_set e Want.toFinish
      have hcnt : wantNodup st.want →
          countWanted (wantSet st.want e Want.toFinish) = countWanted st.want :=
        fun hn => countWanted_set_finish hn hw
      split_ifs at h <;>
        (simp only [Option.some.injEq] at h
         subst h
         exact ⟨rfl, rfl, rfl, rfl, rfl, rfl, hfind, hnd, hcnt⟩)

/-- The state evolution facts shared by the whole EdgeFinished recursion. -/
def efPost (st st2 : PlanState) : Prop :=
  st2.targets = st.targets ∧ st2.dirty = st.dirty ∧ st2.cpw = st.cpw ∧
    st2.commandEdges = st.commandEdges ∧
    (∀ x, st.outputsReady x = true → st2.outputsReady x = true) ∧
    (∀ x, wantFind st.want x = none → wantFind st2.want x = none) ∧
    (wantNodup st.want → wantNodup st2.want) ∧
    (wantNodup st.want → st.wantedEdges = countWanted st.want →
      st2.wantedEdges = countWanted st2.want)

theorem efPost_refl (st : PlanState) : efPost st st :=
  ⟨rfl, rfl, rfl, rfl, fun _ hx => hx, fun _ hx => hx, fun hh => hh, fun _ hh => hh⟩

theorem efPost_trans {a b c : PlanState} (h1 : efPost a b) (h2 : efPost b c) :
    efPost a c := by
  obtain ⟨x1, x2, x3, x4, x5, x6, x7, x8⟩ := h1
  obtain ⟨y1, y2, y3, y4, y5, y6, y7, y8⟩ := h2
  exact ⟨y1.trans x1, y2.trans x2, y3.trans x3, y4.trans x4,
    fun x hx => y5 x (x5 x hx), fun x hx => y6 x (x6 x hx),
    fun hh => y7 (x7 hh), fun hh hc => y8 (x7 hh) (x8 hh hc)⟩

theorem efPost_of_same_want {st st2 : PlanState}
    (ht : st2.targets = st.targets) (hd : st2.dirty = st.dirty) (hc : st2.cpw = st.cpw)
    (hm : st2.commandEdges = st.commandEdges) (hw : st2.wantedEdges = st.wantedEdges)
    (ho : st2.outputsReady = st.outputsReady) (hwa : st2.want = st.want) : efPost st st2 :=
  ⟨ht, hd, hc, hm, fun x hx => by rw [ho]; exact hx, fun x hx => by rw [hwa]; exact hx,
    fun h => by rw [hwa]; exact h, fun h1 h2 => by rw [hwa, hw]; exact h2⟩

theorem ef_master (g : Graph) : ∀ fuel : Nat,
    (∀ st e success err st2 err2 ok,
      edgeFinished g fuel st e success err = some (st2, err2, ok) → efPost st st2) ∧
    (∀ st l err st2 err2 ok,
      nodeFinishedList g fuel st l err = some (st2, err2, ok) → efPost st st2) ∧
    (∀ st n err st2 err2 ok,
      nodeFinished g fuel st n err = some (st2, err2, ok) → efPost st st2) ∧
    (∀ st l err st2 err2 ok,
      edgeMaybeReadyList g fuel st l err = some (st2, err2, ok) → efPost st st2) ∧
    (∀ st e err st2 err2 ok,
      edgeMaybeReady g fuel st e err = some (st2, err2, ok) → efPost st st2) := by
  intro fuel
  induction fuel with
  | zero =>
    refine ⟨?_, ?_, ?_, ?_, ?_⟩ <;> intros <;>
      simp_all [edgeFinished, nodeFinishedList, nodeFinished, edgeMaybeReadyList,
        edgeMaybeReady]
  | succ f ih =>
    obtain ⟨ihE, ihNL, ihN, ihML, ihM⟩ := ih
    refine ⟨?_, ?_, ?_, ?_, ?_⟩
    · -- EdgeFinished
      intro st e success err st2 err2 ok h
      simp only [edgeFinished] at h
      cases hw : wantFind st.want e with
      | none => rw [hw] at h; cases h
      | some w =>
        rw [hw] at h
        dsimp only at h
        by_cases hwn : w = Want.nothing <;>
          simp only [hwn, if_true, if_false, ite_true, ite_false] at h
        · by_cases hs : success = false
          · rw [if_pos hs] at h
            simp only [Option.some.injEq, Prod.mk.injEq] at h
            obtain ⟨rfl, -, -⟩ := h
            exact efPost_of_same_want rfl rfl rfl rfl rfl rfl rfl
          · rw [if_neg hs] at h
            have hrec := ihNL _ _ _ _ _ _ h
            refine efPost_trans ?_ hrec
            refine ⟨rfl, rfl, rfl, rfl, ?_, ?_, ?_, ?_⟩
            · intro x hx
              by_cases hxe : x = e <;> simp [hxe, hx]
            · intro x hx
              rw [wantFind_erase]
              by_cases hxe : x = e <;> simp [hxe, hx]
            · intro hnd
              exact wantNodup_erase e hnd
            · intro hnd hcnt
              have := countWanted_erase hnd hw
              rw [hwn] at this
              simp only [if_pos rfl] at this
              simpa [this] using hcnt
        · by_cases hs : success = false
          · rw [if_pos hs] at h
            simp only [Option.some.injEq, Prod.mk.injEq] at h
            obtain ⟨rfl, -, -⟩ := h
            exact efPost_of_same_want rfl rfl rfl rfl rfl rfl rfl
          · rw [if_neg hs] at h
            have hrec := ihNL _ _ _ _ _ _ h
            refine efPost_trans ?_ hrec
            refine ⟨rfl, rfl, rfl, rfl, ?_, ?_, ?_, ?_⟩
            · intro x hx
              by_cases hxe : x = e <;> simp [hxe, hx]
            · intro x hx
              rw [wantFind_erase]
              by_cases hxe : x = e <;> simp [hxe, hx]
            · intro hnd
              exact wantNodup_erase e hnd
            · intro hnd hcnt
              have := countWanted_erase hnd hw
              rw [if_neg hwn] at this
              simp only [this]
              omega
    · -- the output loop
      intro st l err st2 err2 ok h
      cases l with
      | nil =>
        simp only [nodeFinishedList, Option.some.injEq, Prod.mk.injEq] at h
        obtain ⟨rfl, -, -⟩ := h
        exact efPost_refl st
      | cons o os =>
        simp only [nodeFinishedList] at h
        cases hr : nodeFinished g f st o err with
        | none => rw [hr] at h; cases h
        | some r =>
          obtain ⟨sta, erra, oka⟩ := r
          rw [hr] at h
          dsimp only at h
          split_ifs at h with hok
          · simp only [Option.some.injEq, Prod.mk.injEq] at h
            obtain ⟨rfl, -, -⟩ := h
            exact ihN _ _ _ _ _ _ hr
          · exact efPost_trans (ihN _ _ _ _ _ _ hr) (ihNL _ _ _ _ _ _ h)
    · -- NodeFinished
      intro st n err st2 err2 ok h
      simp only [nodeFinished] at h
      by_cases hdp : (g.node n).dyndepPending = true
      · rw [if_pos hdp] at h
        cases h
      · rw [if_neg hdp] at h
        exact ihML _ _ _ _ _ _ h
    · -- the out-edge loop
      intro st l err st2 err2 ok h
      cases l with
      | nil =>
        simp only [edgeMaybeReadyList, Option.some.injEq, Prod.mk.injEq] at h
        obtain ⟨rfl, -, -⟩ := h
        exact efPost_refl st
      | cons oe oes =>
        simp only [edgeMaybeReadyList] at h
        cases hwoe : wantFind st.want oe with
        | none =>
          rw [hwoe] at h
          exact ihML _ _ _ _ _ _ h
        | some woe =>
          rw [hwoe] at h
          dsimp only at h
          cases hr : edgeMaybeReady g f st oe err with
          | none => rw [hr] at h; cases h
          | some r =>
            obtain ⟨sta, erra, oka⟩ := r
            rw [hr] at h
            dsimp only at h
            split_ifs at h with hok
            · simp only [Option.some.injEq, Prod.mk.injEq] at h
              obtain ⟨rfl, -, -⟩ := h
              exact ihM _ _ _ _ _ _ hr
            · exact efPost_trans (ihM _ _ _ _ _ _ hr) (ihML _ _ _ _ _ _ h)
    · -- EdgeMaybeReady
      intro st e err st2 err2 ok h
      simp only [edgeMaybeReady] at h
      split_ifs at h with hair
      · cases hw : wantFind st.want e with
        | none => rw [hw] at h; cases h
        | some w =>
          rw [hw] at h
          dsimp only at h
          split_ifs at h with hwn
          · exact ihE _ _ _ _ _ _ _ h
          · cases hsw : scheduleWork g st e with
            | none => rw [hsw] at h; cases h
            | some stw =>
              rw [hsw] at h
              simp only [Option.some.injEq, Prod.mk.injEq] at h
              obtain ⟨rfl, -, -⟩ := h
              obtain ⟨h1, h2, h3, h4, h5, h6, h7, h8, h9⟩ := scheduleWork_post hsw
              exact ⟨h1, h2, h3, h5, fun x hx => by rw [h4]; exact hx, h7, h8,
                fun hnd hcnt => by rw [h6, h9 hnd]; exact hcnt⟩
      · simp only [Option.some.injEq, Prod.mk.injEq] at h
        obtain ⟨rfl, -, -⟩ := h
        exact efPost_refl st

/-- C3: Plan::EdgeFinished on a failed edge with a want entry leaves the
want map, wanted_edges, command_edges and every outputs_ready bit
unchanged, and returns true: the edge is retained in want, unscheduled
(build.cc 213-215 return before any bookkeeping).  Only the pool in-flight
counter and the ready queue can change, through the pool release. -/
theorem edgeFinished_failed_retains (g : Graph) (fuel : Nat) (st : PlanState) (e : Nat)
    (err : String) (w : Want) (hw : wantFind st.want e = some w) :
    ∃ st2, edgeFinished g (fuel + 1) st e false err = some (st2, err, true) ∧
      st2.want = st.want ∧ st2.wantedEdges = st.wantedEdges ∧
      st2.commandEdges = st.commandEdges ∧ st2.outputsReady = st.outputsReady := by
  simp only [edgeFinished]
  rw [hw]
  dsimp only
  refine ⟨_, rfl, ?_, ?_, ?_, ?_⟩ <;> by_cases hwn : w = Want.nothing <;> simp [hwn]

/-- A one-command graph: edge 0 produces node 0 and is not phony. -/
def gB : Graph :=
  ⟨[⟨"out", some 0, [], false, false, 0⟩],
   [⟨[], 0, [0], false, 0, false, false, false, "", "cc", false⟩], []⟩

/-- A plan that wants edge 0 of gB. -/
def stB : PlanState :=
  { planState0 with
    want := [(0, Want.toStart)],
    wantedEdges := 1,
    commandEdges := 1,
    dirty := fun _ => true }

/-- Witness for the C3 theorem at a concrete wanted edge. -/
theorem edgeFinished_failed_retains_witness :
    ∃ st2, edgeFinished gB 5 stB 0 false "" = some (st2, "", true) ∧
      st2.want = stB.want ∧ st2.wantedEdges = stB.wantedEdges ∧
      st2.commandEdges = stB.commandEdges ∧ st2.outputsReady = stB.outputsReady :=
  edgeFinished_failed_retains gB 4 stB 0 "" Want.toStart rfl

/-- C1 counterexample: after a successful EdgeFinished of the only command
edge of gB, the want map is empty, so the count of non-phony edges derived
from it is 0, yet command_edges_ is still 1 — EdgeFinished never decrements
command_edges_ (build.cc 217-219 decrement only wanted_edges_). -/
theorem edgeFinished_commandEdges_counterexample :
    (edgeFinished gB 5 stB 0 true "").map
        (fun r => (r.1.commandEdges, countCommand gB r.1.want, r.2.2)) =
      some (1, 0, true) ∧ ¬ (1 : Int) = 0 := by
  refine ⟨rfl, by decide⟩

/-- C1 amended: after a successful EdgeFinished(e) that returns true, the
edge has outputs_ready, has no entry in want, and wanted_edges equals the
count derived from the remaining want map; command_edges however is left
unchanged by EdgeFinished (it is a running total, only CleanNode decrements
it), so it does not in general equal the derived count. -/
theorem edgeFinished_success_amended (g : Graph) (fuel : Nat) (st : PlanState)
    (e : Nat) (err : String) (st2 : PlanState) (err2 : String)
    (hnd : wantNodup st.want)
    (hcnt : st.wantedEdges = countWanted st.want)
    (h : edgeFinished g (fuel + 1) st e true err = some (st2, err2, true)) :
    st2.outputsReady e = true ∧ wantFind st2.want e = none ∧
      st2.wantedEdges = countWanted st2.want ∧ st2.commandEdges = st.commandEdges := by
  simp only [edgeFinished] at h
  cases hw : wantFind st.want e with
  | none => rw [hw] at h; cases h
  | some w =>
    rw [hw] at h
    dsimp only at h
    rw [if_neg (by simp : ¬ (true = false))] at h
    by_cases hwn : w = Want.nothing <;>
      simp only [hwn, if_true, if_false, ite_true, ite_false] at h
    · have hpost := (ef_master g fuel).2.1 _ _ _ _ _ _ h
      obtain ⟨p1, p2, p3, p4, p5, p6, p7, p8⟩ := hpost
      refine ⟨p5 e (by simp), p6 e (by rw [wantFind_erase]; simp), ?_, p4⟩
      have hnd4 : wantNodup (wantErase st.want e) := wantNodup_erase e hnd
      have hcnt4 := countWanted_erase hnd hw
      rw [hwn] at hcnt4
      simp only [if_pos rfl] at hcnt4
      exact p8 hnd4 (by rw [hcnt4]; exact hcnt)
    · have hpost := (ef_master g fuel).2.1 _ _ _ _ _ _ h
      obtain ⟨p1, p2, p3, p4, p5, p6, p7, p8⟩ := hpost
      refine ⟨p5 e (by simp), p6 e (by rw [wantFind_erase]; simp), ?_, p4⟩
      have hnd4 : wantNodup (wantErase st.want e) := wantNodup_erase e hnd
      have hcnt4 := countWanted_erase hnd hw
      rw [if_neg hwn] at hcnt4
      refine p8 hnd4 ?_
      show st.wantedEdges - 1 = countWanted (wantErase st.want e)
      rw [hcnt4]
      omega

/-- The state produced by the C1 run on the concrete graph. -/
def stB2 : PlanState :=
  match edgeFinished gB 5 stB 0 true "" with
  | some r => r.1
  | none => planState0

/-- Witness for the amended C1 theorem on the concrete one-command graph. -/
theorem edgeFinished_success_amended_witness :
    stB2.outputsReady 0 = true ∧ wantFind stB2.want 0 = none ∧
      stB2.wantedEdges = countWanted stB2.want ∧ stB2.commandEdges = stB.commandEdges :=
  edgeFinished_success_amended gB 4 stB 0 "" stB2 ""
    (by show (stB.want.map Prod.fst).Nodup; decide) (by decide) rfl

theorem mem_delayInsert (cpw : Nat → Int) (e : Nat) :
    ∀ (l : List Nat) (x : Nat), x ∈ delayInsert cpw e l ↔ x = e ∨ x ∈ l := by
  intro l
  induction l with
  | nil =>
    intro x
    simp [delayInsert]
  | cons d ds ih =>
    intro x
    simp only [delayInsert]
    split_ifs with hc
    · simp [List.mem_cons]
    · simp only [List.mem_cons, ih]
      tauto

theorem nodup_delayInsert (cpw : Nat → Int) (e : Nat) :
    ∀ {l : List Nat}, l.Nodup → e ∉ l → (delayInsert cpw e l).Nodup := by
  intro l
  induction l with
  | nil =>
    intro _ _
    simp [delayInsert]
  | cons d ds ih =>
    intro hn he
    have hd : d ∉ ds := (List.nodup_cons.mp hn).1
    have hnds : ds.Nodup := (List.nodup_cons.mp hn).2
    have hed : ¬ e = d := fun hh => he (by simp [hh])
    have heds : e ∉ ds := fun hh => he (by simp [hh])
    simp only [delayInsert]
    split_ifs with hc
    · refine List.nodup_cons.mpr ⟨?_, hn⟩
      simp [hed, heds]
    · refine List.nodup_cons.mpr ⟨?_, ih hnds heds⟩
      rw [mem_delayInsert]
      rintro (hh | hh)
      · exact hed hh.symm
      · exact hd hh

theorem poolRetrieve_spec (depth : Nat) (ps : PoolState) (ready : List Nat) :
    ∃ moved, (poolRetrieve depth ps ready).2 = ready ++ moved ∧
      ps.delayed = moved ++ (poolRetrieve depth ps ready).1.delayed :=
  retrieveTick_spec depth ps.delayed.length ps ready

/-- Invariant 3 of the spec (section 3): each edge appears at most once in
the ready queue and in the pool delay queues; the members of those queues
hold want state kWantToFinish, sit in the delay queue of their own pool and
never also in ready. -/
def readyInv (g : Graph) (st : PlanState) : Prop :=
  st.ready.Nodup ∧
    (∀ pid, (st.pools pid).delayed.Nodup) ∧
    (∀ x, x ∈ st.ready → wantFind st.want x = some Want.toFinish) ∧
    (∀ pid x, x ∈ (st.pools pid).delayed →
      wantFind st.want x = some Want.toFinish ∧ (g.edge x).pool = pid ∧ x ∉ st.ready)

/-- C7: ScheduleWork on a want entry already in kWantToFinish changes
nothing (build.cc 182-188), and ScheduleWork preserves the at-most-once
ready invariant, so each edge appears in the ready queue at most once. -/
theorem scheduleWork_noop_ready_unique (g : Graph) :
    (∀ st e, wantFind st.want e = some Want.toFinish → scheduleWork g st e = some st) ∧
    (∀ st e st2, readyInv g st → scheduleWork g st e = some st2 →
      readyInv g st2 ∧ st2.ready.Nodup) := by
  constructor
  · intro st e hw
    unfold scheduleWork
    rw [hw]
  · intro st e st2 hinv h
    obtain ⟨hrn, hdn, hrw, hdw⟩ := hinv
    unfold scheduleWork at h
    cases hw : wantFind st.want e with
    | none => rw [hw] at h; cases h
    | some w =>
      rw [hw] at h
      cases w with
      | nothing => cases h
      | toFinish =>
        simp only [Option.some.injEq] at h
        subst h
        exact ⟨⟨hrn, hdn, hrw, hdw⟩, hrn⟩
      | toStart =>
        dsimp only at h
        have heR : e ∉ st.ready := by
          intro hmem
          have := hrw e hmem
          rw [hw] at this
          cases this
        have heD : ∀ pid, e ∉ (st.pools pid).delayed := by
          intro pid hmem
          have := (hdw pid e hmem).1
          rw [hw] at this
          cases this
        have hfind2 : ∀ x, ¬ x = e →
            wantFind (wantSet st.want e Want.toFinish) x = wantFind st.want x :=
          fun x hx => wantFind_set_other hx
        have hfindE : wantFind (wantSet st.want e Want.toFinish) e = some Want.toFinish :=
          wantFind_set_self hw _
        split_ifs at h with hdelay
        · simp only [Option.some.injEq] at h
          subst h
          obtain ⟨moved, hm1, hm2⟩ := poolRetrieve_spec (g.poolDepth (g.edge e).pool)
            ⟨(st.pools (g.edge e).pool).inflight,
              delayInsert st.cpw e ((st.pools (g.edge e).pool).delayed)⟩ st.ready
          dsimp only at hm1 hm2
          have hDnodup : (delayInsert st.cpw e ((st.pools (g.edge e).pool).delayed)).Nodup :=
            nodup_delayInsert _ _ (hdn _) (heD _)
          rw [hm2] at hDnodup
          obtain ⟨hmn, hrdn, hdisj⟩ := List.nodup_append.mp hDnodup
          have hDcases : ∀ x, x ∈ delayInsert st.cpw e ((st.pools (g.edge e).pool).delayed) →
              x = e ∨ x ∈ (st.pools (g.edge e).pool).delayed :=
            fun x hx => (mem_delayInsert st.cpw e _ x).mp hx
          have hmovedD : ∀ x, x ∈ moved →
              x = e ∨ x ∈ (st.pools (g.edge e).pool).delayed := by
            intro x hx
            exact hDcases x (by rw [hm2]; exact List.mem_append_left _ hx)
          have hrdDm : ∀ x, x ∈ (poolRetrieve (g.poolDepth (g.edge e).pool)
              ⟨(st.pools (g.edge e).pool).inflight,
                delayInsert st.cpw e ((st.pools (g.edge e).pool).delayed)⟩
              st.ready).1.delayed →
              x = e ∨ x ∈ (st.pools (g.edge e).pool).delayed := by
            intro x hx
            exact hDcases x (by rw [hm2]; exact List.mem_append_right _ hx)
          have hmember : ∀ x, x ∈ st.ready ++ moved →
              wantFind (wantSet st.want e Want.toFinish) x = some Want.toFinish := by
            intro x hx
            rcases List.mem_append.mp hx with hx | hx
            · have hxe : ¬ x = e := fun hh => heR (hh ▸ hx)
              rw [hfind2 x hxe]
              exact hrw x hx
            · rcases hmovedD x hx with rfl | hx2
              · exact hfindE
              · have hxe : ¬ x = e := fun hh => heD _ (hh ▸ hx2)
                rw [hfind2 x hxe]
                exact (hdw _ x hx2).1
          have hreadyN : (st.ready ++ moved).Nodup := by
            rw [List.nodup_append]
            refine ⟨hrn, hmn, ?_⟩
            intro a ha hamem
            rcases hmovedD a hamem with rfl | ha2
            · exact heR ha
            · exact (hdw _ a ha2).2.2 ha
          refine ⟨⟨?_, ?_, ?_, ?_⟩, ?_⟩
          · rw [hm1]
            exact hreadyN
          · intro pid
            by_cases hp : pid = (g.edge e).pool
            · simp only [poolUpdate, hp, if_pos rfl]
              exact hrdn
            · simp only [poolUpdate, if_neg hp]
              exact hdn pid
          · intro x hx
            rw [hm1] at hx
            exact hmember x hx
          · intro pid x hx
            by_cases hp : pid = (g.edge e).pool
            · subst hp
              simp only [poolUpdate, if_pos rfl] at hx
              refine ⟨?_, ?_, ?_⟩
              · rcases hrdDm x hx with rfl | hx2
                · exact hfindE
                · have hxe : ¬ x = e := fun hh => heD _ (hh ▸ hx2)
                  rw [hfind2 x hxe]
                  exact (hdw _ x hx2).1
              · rcases hrdDm x hx with rfl | hx2
                · rfl
                · exact (hdw _ x hx2).2.1
              · intro hxr
                have hxr2 : x ∈ st.ready ++ moved := by
                  rw [← hm1]
                  exact hxr
                rcases List.mem_append.mp hxr2 with hxr3 | hxr3
                · rcases hrdDm x hx with rfl | hx2
                  · exact heR hxr3
                  · exact (hdw _ x hx2).2.2 hxr3
                · exact hdisj hxr3 hx
            · simp only [poolUpdate, if_neg hp] at hx
              obtain ⟨hf, hh, hnr⟩ := hdw pid x hx
              have hxe : ¬ x = e := fun hhh => heD pid (hhh ▸ hx)
              refine ⟨by rw [hfind2 x hxe]; exact hf, hh, ?_⟩
              intro hxr
              have hxr2 : x ∈ st.ready ++ moved := by
                rw [← hm1]
                exact hxr
              rcases List.mem_append.mp hxr2 with hxr3 | hxr3
              · exact hnr hxr3
              · rcases hmovedD x hxr3 with rfl | hx2
                · exact hxe rfl
                · exact hp ((hh.symm).trans (hdw _ x hx2).2.1)
          · rw [hm1]
            exact hreadyN
        · simp only [Option.some.injEq] at h
          subst h
          have hreadyN : (st.ready ++ [e]).Nodup := by
            rw [List.nodup_append]
            refine ⟨hrn, List.nodup_singleton e, ?_⟩
            intro a ha hamem
            rw [List.mem_singleton] at hamem
            subst hamem
            exact heR ha
          refine ⟨⟨hreadyN, ?_, ?_, ?_⟩, hreadyN⟩
          · intro pid
            by_cases hp : pid = (g.edge e).pool
            · simp only [poolUpdate, hp, if_pos rfl]
              exact hdn _
            · simp only [poolUpdate, if_neg hp]
              exact hdn pid
          · intro x hx
            rcases List.mem_append.mp hx with hx | hx
            · have hxe : ¬ x = e := fun hh => heR (hh ▸ hx)
              rw [hfind2 x hxe]
              exact hrw x hx
            · rw [List.mem_singleton] at hx
              subst hx
              exact hfindE
          · intro pid x hx
            by_cases hp : pid = (g.edge e).pool
            · subst hp
              simp only [poolUpdate, if_pos rfl] at hx
              obtain ⟨hf, hh, hnr⟩ := hdw _ x hx
              have hxe : ¬ x = e := fun hhh => heD _ (hhh ▸ hx)
              refine ⟨by rw [hfind2 x hxe]; exact hf, hh, ?_⟩
              intro hxr
              rcases List.mem_append.mp hxr with hxr | hxr
              · exact hnr hxr
              · rw [List.mem_singleton] at hxr
                exact hxe hxr
            · simp only [poolUpdate, if_neg hp] at hx
              obtain ⟨hf, hh, hnr⟩ := hdw pid x hx
              have hxe : ¬ x = e := fun hhh => heD pid (hhh ▸ hx)
              refine ⟨by rw [hfind2 x hxe]; exact hf, hh, ?_⟩
              intro hxr
              rcases List.mem_append.mp hxr with hxr | hxr
              · exact hnr hxr
              · rw [List.mem_singleton] at hxr
                exact hxe hxr

/-- The state produced by scheduling edge 0 of gB. -/
def stB3 : PlanState :=
  match scheduleWork gB stB 0 with
  | some s => s
  | none => planState0

/-- Witness for the C7 theorem: the no-op hypothesis and the invariant
hypothesis discharged on a concrete plan. -/
theorem scheduleWork_noop_ready_unique_witness :
    scheduleWork gB { stB with want := [(0, Want.toFinish)] } 0 =
        some { stB with want := [(0, Want.toFinish)] } ∧
      (readyInv gB stB3 ∧ stB3.ready.Nodup) := by
  constructor
  · exact (scheduleWork_noop_ready_unique gB).1 { stB with want := [(0, Want.toFinish)] } 0 rfl
  · refine (scheduleWork_noop_ready_unique gB).2 stB 0 stB3 ?_ rfl
    exact ⟨List.nodup_nil, fun _ => List.nodup_nil,
      fun x hx => absurd hx (List.not_mem_nil x),
      fun pid x hx => absurd hx (List.not_mem_nil x)⟩

/-! Part 5: Plan::ComputeCriticalPath (build.cc 483-538),
Plan::ScheduleInitialEdges (540-569) and Plan::PrepareQueue (571-574). -/

/-- Embedding of EdgeWeightHeuristic (build.cc 477-479). -/
def edgeWeightH (g : Graph) (e : Nat) : Int := if (g.edge e).phony then 0 else 1

/-- The std::remove_if dedup of build.cc 486-491: keep the first occurrence
of each target. -/
def dedupFirstAux (seen : List Nat) : List Nat → List Nat
  | [] => []
  | t :: ts => if t ∈ seen then dedupFirstAux seen ts else t :: dedupFirstAux (t :: seen) ts

def dedupFirst (l : List Nat) : List Nat := dedupFirstAux [] l

/-- The working state of the backflow: the weights, the FIFO work queue and
the active_edges set. -/
structure CPState where
  w : Nat → Int
  queue : List Nat
  active : List Nat

/-- The seeding loop of ComputeCriticalPath (build.cc 501-511). -/
def cpSeed (g : Graph) : List Nat → CPState → CPState
  | [], s => s
  | t :: ts, s =>
    match (g.node t).inEdge with
    | none => cpSeed g ts s
    | some ie =>
      let w2 := fun i => if i = ie then max (edgeWeightH g ie) (s.w ie) else s.w i
      let s2 : CPState :=
        if ie ∈ s.active then ⟨w2, s.queue, s.active⟩
        else ⟨w2, s.queue ++ [ie], ie :: s.active⟩
      cpSeed g ts s2

/-- The relaxation of the producing edges of the inputs of a popped edge
(build.cc 520-536); the current weight of the popped edge is re-read on
every iteration, as in the C++. -/
def cpRelaxInputs (g : Graph) (e : Nat) : List Nat → CPState → CPState
  | [], s => s
  | n :: ns, s =>
    match (g.node n).inEdge with
    | none => cpRelaxInputs g e ns s
    | some ie =>
      let proposed := s.w e + edgeWeightH g ie
      if s.w ie < proposed then
        let w2 := fun i => if i = ie then proposed else s.w i
        let s2 : CPState :=
          if ie ∈ s.active then ⟨w2, s.queue, s.active⟩
          else ⟨w2, s.queue ++ [ie], ie :: s.active⟩
        cpRelaxInputs g e ns s2
      else cpRelaxInputs g e ns s

/-- The main work-queue loop of ComputeCriticalPath (build.cc 513-537). -/
def cpLoop (g : Graph) : Nat → CPState → Option (Nat → Int)
  | 0, _ => none
  | fuel + 1, s =>
    match s.queue with
    | [] => some s.w
    | e :: rest =>
      let s1 : CPState := ⟨s.w, rest, s.active.filter (fun x => !(x = e))⟩
      cpLoop g fuel (cpRelaxInputs g e (g.edge e).inputs s1)

/-- Embedding of Plan::ComputeCriticalPath (build.cc 483-538). -/
def computeCriticalPath (g : Graph) (fuel : Nat) (st : PlanState) : Option PlanState :=
  let targets2 := dedupFirst st.targets
  match cpLoop g fuel (cpSeed g targets2 ⟨st.cpw, [], []⟩) with
  | none => none
  | some w => some { st with targets := targets2, cpw := w }

def insertSortedNat (x : Nat) : List Nat → List Nat
  | [] => [x]
  | y :: ys => if x < y then x :: y :: ys else if x = y then y :: ys else y :: insertSortedNat x ys

/-- The scan over the want map of Plan::ScheduleInitialEdges (build.cc
545-560), iterated over a snapshot of the keys, collecting the delayed
pools. -/
def scheduleInitialScan (g : Graph) : List Nat → PlanState → List Nat →
    Option (PlanState × List Nat)
  | [], st, pools => some (st, pools)
  | k :: ks, st, pools =>
    match wantFind st.want k with
    | none => none
    | some w =>
      if w = Want.toStart ∧ allInputsReady g st k = true then
        let pid := (g.edge k).pool
        if poolShouldDelay (g.poolDepth pid) (st.pools pid) = true then
          let ps := st.pools pid
          let ps2 : PoolState := ⟨ps.inflight, delayInsert st.cpw k ps.delayed⟩
          scheduleInitialScan g ks { st with pools := poolUpdate st.pools pid ps2 }
            (insertSortedNat pid pools)
        else
          match scheduleWork g st k with
          | none => none
          | some st2 => scheduleInitialScan g ks st2 pools
      else scheduleInitialScan g ks st pools

/-- The final pool drain of Plan::ScheduleInitialEdges (build.cc 565-568). -/
def retrievePools (g : Graph) : List Nat → PlanState → PlanState
  | [], st => st
  | pid :: pids, st =>
    let r := poolRetrieve (g.poolDepth pid) (st.pools pid) st.ready
    retrievePools g pids { st with
      pools := poolUpdate st.pools pid r.1,
      ready := r.2 }

/-- Embedding of Plan::ScheduleInitialEdges (build.cc 540-569); the
assert(ready_.empty()) is modelled as leaving the fragment. -/
def scheduleInitialEdges (g : Graph) (st : PlanState) : Option PlanState :=
  if st.ready = [] then
    match scheduleInitialScan g (st.want.map Prod.fst) st [] with
    | none => none
    | some (st2, pools) => some (retrievePools g pools st2)
  else none

/-- Embedding of Plan::PrepareQueue (build.cc 571-574). -/
def prepareQueue (g : Graph) (fuel : Nat) (st : PlanState) : Option PlanState :=
  match computeCriticalPath g fuel st with
  | none => none
  | some st2 => scheduleInitialEdges g st2

/-- A downstream path from an edge to a requested target: the edge itself,
followed by consumer edges, ending at the producing edge of a target; the
weight is the sum of the EdgeWeightHeuristic of the edges on the path. -/
inductive PathTo (g : Graph) (ts : List Nat) : Nat → Int → Prop where
  | base (t : Nat) (e : Nat) (ht : t ∈ ts) (he : (g.node t).inEdge = some e) :
      PathTo g ts e (edgeWeightH g e)
  | step (e e2 : Nat) (n : Nat) (w : Int) (hn : n ∈ (g.edge e2).inputs)
      (hie : (g.node n).inEdge = some e) (hp : PathTo g ts e2 w) :
      PathTo g ts e (w + edgeWeightH g e)

theorem edgeWeightH_nonneg (g : Graph) (e : Nat) : 0 ≤ edgeWeightH g e := by
  unfold edgeWeightH
  split_ifs <;> omega

theorem pathTo_nonneg {g : Graph} {ts : List Nat} {e : Nat} {w : Int}
    (h : PathTo g ts e w) : 0 ≤ w := by
  induction h with
  | base t e ht he => exact edgeWeightH_nonneg g e
  | step e e2 n w hn hie hp ih =>
    have := edgeWeightH_nonneg g e
    omega

theorem mem_dedupFirstAux (x : Nat) :
    ∀ (l seen : List Nat), x ∈ dedupFirstAux seen l ↔ x ∈ l ∧ x ∉ seen := by
  intro l
  induction l with
  | nil => intro seen; simp [dedupFirstAux]
  | cons t ts ih =>
    intro seen
    simp only [dedupFirstAux]
    split_ifs with hs
    · rw [ih]
      constructor
      · rintro ⟨h1, h2⟩
        exact ⟨List.mem_cons_of_mem t h1, h2⟩
      · rintro ⟨h1, h2⟩
        rcases List.mem_cons.mp h1 with rfl | h1
        · exact absurd hs h2
        · exact ⟨h1, h2⟩
    · simp only [List.mem_cons, ih]
      constructor
      · rintro (rfl | ⟨h1, h2⟩)
        · exact ⟨Or.inl rfl, hs⟩
        · exact ⟨Or.inr h1, fun hc => h2 (Or.inr hc)⟩
      · rintro ⟨rfl | h1, h2⟩
        · exact Or.inl rfl
        · by_cases hxt : x = t
          · exact Or.inl hxt
          · right
            refine ⟨h1, fun hc => ?_⟩
            rcases hc with hc | hc
            · exact hxt hc
            · exact h2 hc

theorem mem_dedupFirst (x : Nat) (l : List Nat) : x ∈ dedupFirst l ↔ x ∈ l := by
  unfold dedupFirst
  rw [mem_dedupFirstAux]
  simp

theorem pathTo_congr {g : Graph} {ts ts2 : List Nat}
    (hm : ∀ x, x ∈ ts ↔ x ∈ ts2) {e : Nat} {w : Int} (h : PathTo g ts e w) :
    PathTo g ts2 e w := by
  induction h with
  | base t e ht he => exact PathTo.base t e ((hm t).mp ht) he
  | step e e2 n w hn hie hp ih => exact PathTo.step e e2 n w hn hie ih

/-- The backflow constraint at an edge: the weight of the producing edge of
every input is at least the weight of the edge plus that producer's own
heuristic weight. -/
def cpRelaxed (g : Graph) (w : Nat → Int) (x : Nat) : Prop :=
  ∀ n ∈ (g.edge x).inputs, ∀ ie, (g.node n).inEdge = some ie →
    w x + edgeWeightH g ie ≤ w ie

/-- The working invariant of the backflow loop. -/
def cpInv (g : Graph) (ts : List Nat) (s : CPState) : Prop :=
  s.queue.Nodup ∧ (∀ x, x ∈ s.queue ↔ x ∈ s.active) ∧
    (∀ x ∈ s.queue, 0 ≤ s.w x) ∧
    (∀ x, s.w x = -1 ∨ PathTo g ts x (s.w x)) ∧
    (∀ x, x ∈ s.queue ∨ cpRelaxed g s.w x ∨ s.w x = -1)

/-- The seeding postcondition: each target in-edge has at least its own
heuristic weight. -/
def cpSeeded (g : Graph) (ts : List Nat) (w : Nat → Int) : Prop :=
  ∀ t ∈ ts, ∀ ie, (g.node t).inEdge = some ie → edgeWeightH g ie ≤ w ie

/-- A pointwise weight increase at one edge keeps the backflow constraint
of any other edge. -/
theorem cpRelaxed_update {g : Graph} {w : Nat → Int} {x ie : Nat} {M : Int}
    (hxe : ¬ x = ie) (hM : w ie ≤ M) (hx : cpRelaxed g w x) :
    cpRelaxed g (fun i => if i = ie then M else w i) x := by
  intro n hn ie2 hie2
  have hcon := hx n hn ie2 hie2
  dsimp only
  rw [if_neg hxe]
  by_cases h2 : ie2 = ie
  · subst h2
    rw [if_pos rfl]
    omega
  · rw [if_neg h2]
    exact hcon

theorem cpSeed_spec (g : Graph) (ts0 : List Nat) : ∀ (l : List Nat) (s : CPState),
    cpInv g ts0 s → (∀ t ∈ l, t ∈ ts0) →
    cpInv g ts0 (cpSeed g l s) ∧
      (∀ x, s.w x ≤ (cpSeed g l s).w x) ∧
      (∀ t ∈ l, ∀ ie, (g.node t).inEdge = some ie →
        edgeWeightH g ie ≤ (cpSeed g l s).w ie) := by
  intro l
  induction l with
  | nil =>
    intro s hinv hsub
    exact ⟨hinv, fun x => le_refl _, by simp⟩
  | cons t ts ih =>
    intro s hinv hsub
    obtain ⟨hq1, hq2, hq3, hq4, hq5⟩ := hinv
    simp only [cpSeed]
    cases hie : (g.node t).inEdge with
    | none =>
      obtain ⟨j1, j2, j3⟩ := ih s ⟨hq1, hq2, hq3, hq4, hq5⟩ (fun x hx => hsub x (by simp [hx]))
      refine ⟨j1, j2, ?_⟩
      intro t2 ht2 ie2 hie2
      rcases List.mem_cons.mp ht2 with rfl | ht2
      · rw [hie] at hie2
        cases hie2
      · exact j3 t2 ht2 ie2 hie2
    | some ie =>
      dsimp only
      have hwnew : ∀ x, s.w x ≤ (fun i => if i = ie then
          max (edgeWeightH g ie) (s.w ie) else s.w i) x := by
        intro x
        by_cases hx : x = ie <;> simp [hx]
      have hpath : PathTo g ts0 ie (edgeWeightH g ie) :=
        PathTo.base t ie (hsub t (by simp)) hie
      have hI3new : ∀ x, (fun i => if i = ie then
          max (edgeWeightH g ie) (s.w ie) else s.w i) x = -1 ∨
          PathTo g ts0 x ((fun i => if i = ie then
            max (edgeWeightH g ie) (s.w ie) else s.w i) x) := by
        intro x
        by_cases hx : x = ie
        · subst hx
          simp only [if_pos rfl]
          rcases le_total (s.w x) (edgeWeightH g x) with hle | hle
          · rw [max_eq_left hle]
            exact Or.inr hpath
          · rw [max_eq_right hle]
            exact hq4 x
        · simp only [if_neg hx]
          exact hq4 x
      by_cases hact : ie ∈ s.active
      · rw [if_pos hact]
        have hinq : ie ∈ s.queue := (hq2 ie).mpr hact
        have hinv2 : cpInv g ts0 ⟨fun i => if i = ie then
            max (edgeWeightH g ie) (s.w ie) else s.w i, s.queue, s.active⟩ := by
          refine ⟨hq1, hq2, ?_, hI3new, ?_⟩
          · intro x hx
            exact le_trans (hq3 x hx) (hwnew x)
          · intro x
            rcases hq5 x with hx | hx | hx
            · exact Or.inl hx
            · by_cases hxe : x = ie
              · exact Or.inl (hxe ▸ hinq)
              · exact Or.inr (Or.inl (cpRelaxed_update hxe (le_max_right _ _) hx))
            · by_cases hxe : x = ie
              · exact Or.inl (hxe ▸ hinq)
              · refine Or.inr (Or.inr ?_)
                simpa [hxe] using hx
        obtain ⟨j1, j2, j3⟩ := ih _ hinv2 (fun x hx => hsub x (by simp [hx]))
        refine ⟨j1, fun x => le_trans (hwnew x) (j2 x), ?_⟩
        intro t2 ht2 ie2 hie2
        rcases List.mem_cons.mp ht2 with rfl | ht2
        · rw [hie] at hie2
          obtain rfl : ie = ie2 := by injection hie2
          refine le_trans ?_ (j2 ie)
          simp
        · exact j3 t2 ht2 ie2 hie2
      · rw [if_neg hact]
        have hninq : ie ∉ s.queue := fun hc => hact ((hq2 ie).mp hc)
        have hinv2 : cpInv g ts0 ⟨fun i => if i = ie then
            max (edgeWeightH g ie) (s.w ie) else s.w i, s.queue ++ [ie], ie :: s.active⟩ := by
          refine ⟨?_, ?_, ?_, hI3new, ?_⟩
          · rw [List.nodup_append]
            exact ⟨hq1, List.nodup_singleton ie, by
              intro a ha hmem
              rw [List.mem_singleton] at hmem
              subst hmem
              exact hninq ha⟩
          · intro x
            rw [List.mem_append, List.mem_singleton, List.mem_cons]
            rw [hq2 x]
            tauto
          · intro x hx
            rcases List.mem_append.mp hx with hx | hx
            · exact le_trans (hq3 x hx) (hwnew x)
            · rw [List.mem_singleton] at hx
              subst hx
              simp only [if_pos rfl]
              exact le_trans (edgeWeightH_nonneg g x) (le_max_left _ _)
          · intro x
            by_cases hxe : x = ie
            · subst hxe
              exact Or.inl (by simp)
            · rcases hq5 x with hx | hx | hx
              · exact Or.inl (List.mem_append_left _ hx)
              · exact Or.inr (Or.inl (cpRelaxed_update hxe (le_max_right _ _) hx))
              · refine Or.inr (Or.inr ?_)
                simpa [hxe] using hx
        obtain ⟨j1, j2, j3⟩ := ih _ hinv2 (fun x hx => hsub x (by simp [hx]))
        refine ⟨j1, fun x => le_trans (hwnew x) (j2 x), ?_⟩
        intro t2 ht2 ie2 hie2
        rcases List.mem_cons.mp ht2 with rfl | ht2
        · rw [hie] at hie2
          obtain rfl : ie = ie2 := by injection hie2
          refine le_trans ?_ (j2 ie)
          simp
        · exact j3 t2 ht2 ie2 hie2

/-- The postcondition of the relax loop over the inputs of the popped edge. -/
def cpRelaxOut (g : Graph) (ts0 : List Nat) (e : Nat) (l : List Nat) (s s2 : CPState) : Prop :=
  s2.queue.Nodup ∧ (∀ x, x ∈ s2.queue ↔ x ∈ s2.active) ∧
    (∀ x ∈ s2.queue, 0 ≤ s2.w x) ∧
    (∀ x, s2.w x = -1 ∨ PathTo g ts0 x (s2.w x)) ∧
    (∀ x, s.w x ≤ s2.w x) ∧
    (∀ x, x ∈ s.queue → x ∈ s2.queue) ∧
    (∀ x, ¬ x = e → (x ∈ s.queue ∨ cpRelaxed g s.w x ∨ s.w x = -1) →
      (x ∈ s2.queue ∨ cpRelaxed g s2.w x ∨ s2.w x = -1)) ∧
    (e ∈ s2.queue ∨ ((∀ n ∈ l, ∀ ie, (g.node n).inEdge = some ie →
        s2.w e + edgeWeightH g ie ≤ s2.w ie) ∧ s2.w e = s.w e))

theorem cpRelax_spec (g : Graph) (ts0 : List Nat) (e : Nat) : ∀ (l : List Nat) (s : CPState),
    (∀ n ∈ l, n ∈ (g.edge e).inputs) →
    s.queue.Nodup → (∀ x, x ∈ s.queue ↔ x ∈ s.active) →
    (∀ x ∈ s.queue, 0 ≤ s.w x) →
    (∀ x, s.w x = -1 ∨ PathTo g ts0 x (s.w x)) →
    0 ≤ s.w e →
    cpRelaxOut g ts0 e l s (cpRelaxInputs g e l s) := by
  intro l
  induction l with
  | nil =>
    intro s hl hq1 hq2 hq3 hq4 hse
    exact ⟨hq1, hq2, hq3, hq4, fun x => le_refl _, fun x hx => hx,
      fun x hxe hd => hd, Or.inr ⟨by simp, rfl⟩⟩
  | cons n ns ih =>
    intro s hl hq1 hq2 hq3 hq4 hse
    simp only [cpRelaxInputs]
    cases hie : (g.node n).inEdge with
    | none =>
      obtain ⟨j1, j2, j3, j4, j5, j6, j7, j8⟩ :=
        ih s (fun x hx => hl x (by simp [hx])) hq1 hq2 hq3 hq4 hse
      refine ⟨j1, j2, j3, j4, j5, j6, j7, ?_⟩
      rcases j8 with j8 | ⟨j8, j9⟩
      · exact Or.inl j8
      · refine Or.inr ⟨?_, j9⟩
        intro n2 hn2 ie2 hie2
        rcases List.mem_cons.mp hn2 with rfl | hn2
        · rw [hie] at hie2
          cases hie2
        · exact j8 n2 hn2 ie2 hie2
    | some ie =>
      dsimp only
      by_cases hlt : s.w ie < s.w e + edgeWeightH g ie
      · rw [if_pos hlt]
        have hwnew : ∀ x, s.w x ≤ (fun i => if i = ie then s.w e + edgeWeightH g ie
            else s.w i) x := by
          intro x
          by_cases hx : x = ie
          · subst hx
            simp only [if_pos rfl]
            omega
          · simp [hx]
        have hpathE : PathTo g ts0 e (s.w e) := by
          rcases hq4 e with h | h
          · omega
          · exact h
        have hpathIe : PathTo g ts0 ie (s.w e + edgeWeightH g ie) :=
          PathTo.step ie e n (s.w e) (hl n (by simp)) hie hpathE
        have hI3new : ∀ x, (fun i => if i = ie then s.w e + edgeWeightH g ie
            else s.w i) x = -1 ∨ PathTo g ts0 x ((fun i => if i = ie then
              s.w e + edgeWeightH g ie else s.w i) x) := by
          intro x
          by_cases hx : x = ie
          · subst hx
            simp only [if_pos rfl]
            exact Or.inr hpathIe
          · simp only [if_neg hx]
            exact hq4 x
        have hnew0 : (0:Int) ≤ s.w e + edgeWeightH g ie := by
          have := edgeWeightH_nonneg g ie
          omega
        by_cases hact : ie ∈ s.active
        · rw [if_pos hact]
          have hinq : ie ∈ s.queue := (hq2 ie).mpr hact
          obtain ⟨j1, j2, j3, j4, j5, j6, j7, j8⟩ :=
            ih ⟨fun i => if i = ie then s.w e + edgeWeightH g ie else s.w i,
                s.queue, s.active⟩
              (fun x hx => hl x (by simp [hx])) hq1 hq2
              (fun x hx => le_trans (hq3 x hx) (hwnew x)) hI3new
              (le_trans hse (hwnew e))
          refine ⟨j1, j2, j3, j4, fun x => le_trans (hwnew x) (j5 x), j6, ?_, ?_⟩
          · intro x hxe hd
            rcases hd with hd | hd | hd
            · exact Or.inl (j6 x hd)
            · by_cases hxie : x = ie
              · exact Or.inl (j6 x (hxie ▸ hinq))
              · exact j7 x hxe (Or.inr (Or.inl
                  (cpRelaxed_update hxie (by omega) hd)))
            · by_cases hxie : x = ie
              · exact Or.inl (j6 x (hxie ▸ hinq))
              · exact j7 x hxe (Or.inr (Or.inr (by simpa [hxie] using hd)))
          · by_cases heie : e = ie
            · exact Or.inl (j6 e (heie ▸ hinq))
            · rcases j8 with j8 | ⟨j8, j9⟩
              · exact Or.inl j8
              · have hwe : ((⟨fun i => if i = ie then s.w e + edgeWeightH g ie
                      else s.w i, s.queue, s.active⟩ : CPState)).w e =
                    s.w e := if_neg heie
                have hwion : ((⟨fun i => if i = ie then s.w e + edgeWeightH g ie
                      else s.w i, s.queue, s.active⟩ : CPState)).w ie =
                    s.w e + edgeWeightH g ie := if_pos rfl
                refine Or.inr ⟨?_, by rw [j9, hwe]⟩
                intro n2 hn2 ie2 hie2
                rcases List.mem_cons.mp hn2 with rfl | hn2
                · rw [hie] at hie2
                  obtain rfl : ie = ie2 := by injection hie2
                  have hm := j5 ie
                  rw [hwion] at hm
                  rw [j9, hwe]
                  omega
                · exact j8 n2 hn2 ie2 hie2
        · rw [if_neg hact]
          have hninq : ie ∉ s.queue := fun hc => hact ((hq2 ie).mp hc)
          have hinqNew : ie ∈ s.queue ++ [ie] := List.mem_append_right _ (by simp)
          obtain ⟨j1, j2, j3, j4, j5, j6, j7, j8⟩ :=
            ih ⟨fun i => if i = ie then s.w e + edgeWeightH g ie else s.w i,
                s.queue ++ [ie], ie :: s.active⟩
              (fun x hx => hl x (by simp [hx]))
              (by
                rw [List.nodup_append]
                exact ⟨hq1, List.nodup_singleton ie, by
                  intro a ha hmem
                  rw [List.mem_singleton] at hmem
                  subst hmem
                  exact hninq ha⟩)
              (by
                intro x
                rw [List.mem_append, List.mem_singleton, List.mem_cons, hq2 x]
                tauto)
              (by
                intro x hx
                rcases List.mem_append.mp hx with hx | hx
                · exact le_trans (hq3 x hx) (hwnew x)
                · rw [List.mem_singleton] at hx
                  subst hx
                  simpa using hnew0)
              hI3new (le_trans hse (hwnew e))
          refine ⟨j1, j2, j3, j4, fun x => le_trans (hwnew x) (j5 x),
            fun x hx => j6 x (List.mem_append_left _ hx), ?_, ?_⟩
          · intro x hxe hd
            rcases hd with hd | hd | hd
            · exact Or.inl (j6 x (List.mem_append_left _ hd))
            · by_cases hxie : x = ie
              · exact Or.inl (j6 x (hxie ▸ hinqNew))
              · exact j7 x hxe (Or.inr (Or.inl
                  (cpRelaxed_update hxie (by omega) hd)))
            · by_cases hxie : x = ie
              · exact Or.inl (j6 x (hxie ▸ hinqNew))
              · exact j7 x hxe (Or.inr (Or.inr (by simpa [hxie] using hd)))
          · by_cases heie : e = ie
            · exact Or.inl (j6 e (heie ▸ hinqNew))
            · rcases j8 with j8 | ⟨j8, j9⟩
              · exact Or.inl j8
              · have hwe : ((⟨fun i => if i = ie then s.w e + edgeWeightH g ie
                      else s.w i, s.queue ++ [ie], ie :: s.active⟩ : CPState)).w e =
                    s.w e := if_neg heie
                have hwion : ((⟨fun i => if i = ie then s.w e + edgeWeightH g ie
                      else s.w i, s.queue ++ [ie], ie :: s.active⟩ : CPState)).w ie =
                    s.w e + edgeWeightH g ie := if_pos rfl
                refine Or.inr ⟨?_, by rw [j9, hwe]⟩
                intro n2 hn2 ie2 hie2
                rcases List.mem_cons.mp hn2 with rfl | hn2
                · rw [hie] at hie2
                  obtain rfl : ie = ie2 := by injection hie2
                  have hm := j5 ie
                  rw [hwion] at hm
                  rw [j9, hwe]
                  omega
                · exact j8 n2 hn2 ie2 hie2
      · rw [if_neg hlt]
        obtain ⟨j1, j2, j3, j4, j5, j6, j7, j8⟩ :=
          ih s (fun x hx => hl x (by simp [hx])) hq1 hq2 hq3 hq4 hse
        refine ⟨j1, j2, j3, j4, j5, j6, j7, ?_⟩
        rcases j8 with j8 | ⟨j8, j9⟩
        · exact Or.inl j8
        · refine Or.inr ⟨?_, j9⟩
          intro n2 hn2 ie2 hie2
          rcases List.mem_cons.mp hn2 with rfl | hn2
          · rw [hie] at hie2
            obtain rfl : ie = ie2 := by injection hie2
            have hm := j5 ie
            rw [j9]
            omega
          · exact j8 n2 hn2 ie2 hie2

/-- Witness for the amended C8 theorem at a concrete clean leaf target. -/
theorem addTarget_twice_amended_witness :
    ({ planState0 with targets := [0, 0] } : PlanState) =
        { ({ planState0 with targets := [0] } : PlanState) with targets :=
          ({ planState0 with targets := [0] } : PlanState).targets ++ [0] } ∧
      ("" : String) = "" :=
  addTarget_twice_amended g8 2 planState0 0 "" "" "" { planState0 with targets := [0] }
    { planState0 with targets := [0, 0] } false false rfl rfl

/-- The main loop preserves the invariant and only raises weights; a
terminating run ends with an empty queue, so every final weight is -1 or
fully relaxed. -/
theorem cpLoop_spec (g : Graph) (ts0 : List Nat) : ∀ (fuel : Nat) (s : CPState) (w : Nat → Int),
    cpInv g ts0 s → cpLoop g fuel s = some w →
    (∀ x, s.w x ≤ w x) ∧ (∀ x, w x = -1 ∨ PathTo g ts0 x (w x)) ∧
      (∀ x, cpRelaxed g w x ∨ w x = -1) := by
  intro fuel
  induction fuel with
  | zero =>
    intro s w hinv h
    simp [cpLoop] at h
  | succ fuel ih =>
    intro s w hinv h
    obtain ⟨sw, sq, sa⟩ := s
    obtain ⟨hq1, hq2, hq3, hq4, hq5⟩ := hinv
    cases sq with
    | nil =>
      simp only [cpLoop] at h
      injection h with h
      subst h
      refine ⟨fun x => le_refl _, hq4, ?_⟩
      intro x
      rcases hq5 x with hx | hx | hx
      · exact absurd hx (List.not_mem_nil x)
      · exact Or.inl hx
      · exact Or.inr hx
    | cons e rest =>
      simp only [cpLoop] at h
      have hnd := List.nodup_cons.mp hq1
      have hmemIff : ∀ x, x ∈ rest ↔ x ∈ sa.filter (fun y => !(y = e)) := by
        intro x
        rw [List.mem_filter]
        constructor
        · intro hx
          have hxe : ¬ x = e := fun hc => hnd.1 (hc ▸ hx)
          exact ⟨(hq2 x).mp (List.mem_cons_of_mem e hx), by simp [hxe]⟩
        · rintro ⟨hsa, hbe⟩
          have hxe : ¬ x = e := by simpa using hbe
          rcases List.mem_cons.mp ((hq2 x).mpr hsa) with hc | hc
          · exact absurd hc hxe
          · exact hc
      obtain ⟨j1, j2, j3, j4, j5, j6, j7, j8⟩ :=
        cpRelax_spec g ts0 e (g.edge e).inputs ⟨sw, rest, sa.filter (fun y => !(y = e))⟩
          (fun n hn => hn) hnd.2 hmemIff
          (fun x hx => hq3 x (List.mem_cons_of_mem e hx))
          hq4 (hq3 e (List.mem_cons_self e rest))
      have hinv2 : cpInv g ts0 (cpRelaxInputs g e (g.edge e).inputs
          ⟨sw, rest, sa.filter (fun y => !(y = e))⟩) := by
        refine ⟨j1, j2, j3, j4, ?_⟩
        intro x
        by_cases hxe : x = e
        · subst hxe
          rcases j8 with j8 | ⟨j8a, j8b⟩
          · exact Or.inl j8
          · exact Or.inr (Or.inl j8a)
        · rcases hq5 x with hx | hx | hx
          · rcases List.mem_cons.mp hx with hc | hc
            · exact absurd hc hxe
            · exact j7 x hxe (Or.inl hc)
          · exact j7 x hxe (Or.inr (Or.inl hx))
          · exact j7 x hxe (Or.inr (Or.inr hx))
      obtain ⟨m1, m2, m3⟩ := ih _ w hinv2 h
      exact ⟨fun x => le_trans (j5 x) (m1 x), m2, m3⟩

/-- A seeded, fully relaxed weight assignment bounds every downstream path
weight from above. -/
theorem cp_complete {g : Graph} {ts : List Nat} {W : Nat → Int}
    (hseed : cpSeeded g ts W)
    (hrel : ∀ x, cpRelaxed g W x ∨ W x = -1) :
    ∀ e w, PathTo g ts e w → w ≤ W e := by
  intro e w h
  induction h with
  | base t e ht he => exact hseed t ht e he
  | step e e2 n w hn hie hp ih =>
    rcases hrel e2 with hr | hr
    · have hc := hr n hn e hie
      omega
    · have h0 := pathTo_nonneg hp
      rw [hr] at ih
      omega

/-- ComputeCriticalPath, started from the -1 initial weights, returns
weights that are sound (each one realised by a path to a target) and
complete (no path weighs more). -/
theorem computeCriticalPath_props {g : Graph} {fuel : Nat} {st st2 : PlanState}
    (hinit : ∀ e, st.cpw e = -1)
    (h : computeCriticalPath g fuel st = some st2) :
    (∀ e, st2.cpw e = -1 ∨ PathTo g st.targets e (st2.cpw e)) ∧
      (∀ e w2, PathTo g st.targets e w2 → w2 ≤ st2.cpw e) := by
  simp only [computeCriticalPath] at h
  cases hl : cpLoop g fuel (cpSeed g (dedupFirst st.targets) ⟨st.cpw, [], []⟩) with
  | none => rw [hl] at h; cases h
  | some w =>
    rw [hl] at h
    have h2 := Option.some.inj h
    subst h2
    have hinv0 : cpInv g (dedupFirst st.targets) ⟨st.cpw, [], []⟩ :=
      ⟨List.nodup_nil, fun x => Iff.rfl, fun x hx => absurd hx (List.not_mem_nil x),
        fun x => Or.inl (hinit x), fun x => Or.inr (Or.inr (hinit x))⟩
    obtain ⟨hinv1, hmono1, hseed1⟩ := cpSeed_spec g (dedupFirst st.targets)
      (dedupFirst st.targets) ⟨st.cpw, [], []⟩ hinv0 (fun t ht => ht)
    obtain ⟨m1, m2, m3⟩ := cpLoop_spec g (dedupFirst st.targets) fuel _ w hinv1 hl
    have hmm : ∀ x, x ∈ dedupFirst st.targets ↔ x ∈ st.targets := fun x => mem_dedupFirst x _
    have hseedW : cpSeeded g (dedupFirst st.targets) w :=
      fun t ht ie hie => le_trans (hseed1 t ht ie hie) (m1 ie)
    have hcompT := cp_complete hseedW m3
    constructor
    · intro e
      rcases m2 e with he | he
      · exact Or.inl he
      · exact Or.inr (pathTo_congr hmm he)
    · intro e w2 hw2
      exact hcompT e w2 (pathTo_congr (fun x => (hmm x).symm) hw2)

/-- The scan of ScheduleInitialEdges only touches want, pools and ready. -/
theorem scheduleInitialScan_frame (g : Graph) : ∀ (ks : List Nat) (st : PlanState)
    (pools : List Nat) (st2 : PlanState) (pools2 : List Nat),
    scheduleInitialScan g ks st pools = some (st2, pools2) →
    st2.cpw = st.cpw ∧ st2.targets = st.targets := by
  intro ks
  induction ks with
  | nil =>
    intro st pools st2 pools2 h
    simp only [scheduleInitialScan, Option.some.injEq, Prod.mk.injEq] at h
    rw [← h.1]
    exact ⟨rfl, rfl⟩
  | cons k ks ih =>
    intro st pools st2 pools2 h
    simp only [scheduleInitialScan] at h
    cases hf : wantFind st.want k with
    | none => rw [hf] at h; cases h
    | some wv =>
      rw [hf] at h
      dsimp only at h
      by_cases hc : wv = Want.toStart ∧ allInputsReady g st k = true
      · rw [if_pos hc] at h
        by_cases hd : poolShouldDelay (g.poolDepth (g.edge k).pool)
            (st.pools (g.edge k).pool) = true
        · rw [if_pos hd] at h
          obtain ⟨ha, hb⟩ := ih _ _ _ _ h
          exact ⟨ha, hb⟩
        · rw [if_neg hd] at h
          cases hs : scheduleWork g st k with
          | none => rw [hs] at h; cases h
          | some stw =>
            rw [hs] at h
            obtain ⟨ha, hb⟩ := ih _ _ _ _ h
            obtain ⟨hT, _, hC, _⟩ := scheduleWork_post hs
            exact ⟨ha.trans hC, hb.trans hT⟩
      · rw [if_neg hc] at h
        exact ih _ _ _ _ h

/-- The final pool drain only touches pools and ready. -/
theorem retrievePools_frame (g : Graph) : ∀ (pids : List Nat) (st : PlanState),
    (retrievePools g pids st).cpw = st.cpw ∧ (retrievePools g pids st).targets = st.targets := by
  intro pids
  induction pids with
  | nil => intro st; exact ⟨rfl, rfl⟩
  | cons p ps ih =>
    intro st
    simp only [retrievePools]
    obtain ⟨ha, hb⟩ := ih _
    exact ⟨ha, hb⟩

/-- ScheduleInitialEdges leaves the critical-path weights and the targets
sequence unchanged. -/
theorem scheduleInitialEdges_frame {g : Graph} {st st2 : PlanState}
    (h : scheduleInitialEdges g st = some st2) :
    st2.cpw = st.cpw ∧ st2.targets = st.targets := by
  unfold scheduleInitialEdges at h
  by_cases hr : st.ready = []
  · rw [if_pos hr] at h
    cases hs : scheduleInitialScan g (st.want.map Prod.fst) st [] with
    | none => rw [hs] at h; cases h
    | some r =>
      obtain ⟨sta, pls⟩ := r
      rw [hs] at h
      have h2 := Option.some.inj h
      subst h2
      obtain ⟨ha, hb⟩ := scheduleInitialScan_frame g _ _ _ _ _ hs
      obtain ⟨hc, hd⟩ := retrievePools_frame g pls sta
      exact ⟨hc.trans ha, hd.trans hb⟩
  · rw [if_neg hr] at h; cases h

/-- C2: after PrepareQueue on a plan whose critical-path weights all hold
the initial -1 sentinel, the critical-path weight of an edge from which a
downstream path to a requested target exists equals the weight of the
heaviest such path, each non-phony edge on the path counting 1 and each
phony edge counting 0. -/
theorem prepareQueue_critical_path (g : Graph) (fuel : Nat) (st st2 : PlanState)
    (hinit : ∀ e, st.cpw e = -1)
    (h : prepareQueue g fuel st = some st2) (e : Nat) (w : Int)
    (hw : PathTo g st.targets e w)
    (hmax : ∀ w2, PathTo g st.targets e w2 → w2 ≤ w) :
    st2.cpw e = w := by
  unfold prepareQueue at h
  cases hc : computeCriticalPath g fuel st with
  | none => rw [hc] at h; cases h
  | some st1 =>
    rw [hc] at h
    obtain ⟨hsound, hcomp⟩ := computeCriticalPath_props hinit hc
    obtain ⟨hcf, _⟩ := scheduleInitialEdges_frame h
    rw [hcf]
    have he1 : w ≤ st1.cpw e := hcomp e w hw
    rcases hsound e with hs | hs
    · have h0 := pathTo_nonneg hw
      omega
    · have h2 := hmax _ hs
      omega

def gC2 : Graph :=
  ⟨[⟨"out", some 0, [], false, false, 0⟩],
   [⟨[], 0, [0], false, 0, false, false, false, "", "cc", false⟩], []⟩

def stC2 : PlanState :=
  { planState0 with
    targets := [0],
    cpw := fun _ => -1 }

def stC2res : PlanState :=
  match prepareQueue gC2 4 stC2 with
  | some s => s
  | none => stC2

/-- In the one-edge witness graph every downstream path ends at edge 0 with
weight 1. -/
theorem pathTo_gC2 : ∀ e w, PathTo gC2 [0] e w → e = 0 ∧ w = 1 := by
  intro e w h
  induction h with
  | base t e ht he =>
    have ht0 : t = 0 := by simpa using ht
    subst ht0
    have he0 : some (0 : Nat) = some e := by rw [← he]; rfl
    have he1 : e = 0 := by
      injection he0 with he0
      exact he0.symm
    subst he1
    exact ⟨rfl, rfl⟩
  | step e e2 n w hn hie hp ih =>
    obtain ⟨he2, hw⟩ := ih
    subst he2
    exact absurd hn (List.not_mem_nil n)

/-- Witness for the C2 theorem on the one-edge graph: PrepareQueue assigns
edge 0 the weight 1 of its unique path to the target. -/
theorem prepareQueue_critical_path_witness :
    ((∀ e, stC2.cpw e = -1) ∧ prepareQueue gC2 4 stC2 = some stC2res ∧
        PathTo gC2 stC2.targets 0 1) ∧ stC2res.cpw 0 = 1 := by
  refine ⟨⟨fun e => rfl, rfl, PathTo.base 0 0 (by simp [stC2]) rfl⟩, ?_⟩
  exact prepareQueue_critical_path gC2 4 stC2 stC2res (fun e => rfl) rfl 0 1
    (PathTo.base 0 0 (by simp [stC2]) rfl)
    (fun w2 h2 => le_of_eq (pathTo_gC2 0 w2 h2).2)


/-! Part 6: Builder::StartEdge (build.cc 1047-1092), Builder::FinishCommand
(1094-1203), Plan::CleanNode (269-324) and Builder::Build (915-1034).  The
external layers (DiskInterface, BuildLog, DepsLog, DependencyScan, the
subprocess module and the system clock) are not part of src/, so their
outcomes enter as oracle fields of BuildEnv; everything downstream of those
outcomes follows build.cc. -/

/-- The oracle environment: configuration plus the outcomes of every call
into a layer outside src/ (disk, logs, scan, subprocesses, clock). -/
structure BuildEnv where
  dryRun : Bool
  logPresent : Bool
  recordOk : Bool
  depsRecordOk : Nat → Bool
  extractOk : Nat → Bool
  stat : Nat → Int
  statErr : String
  recomputeOutputsDirty : Nat → Option Nat → Option Bool
  errnoStr : String
  makeDirsOk : Nat → Bool
  lockStat : Int
  writeRspOk : Nat → Bool
  subprocAddOk : Nat → Bool
  evalCommand : Nat → String
  result : Nat → Option Bool
  startTime : Nat → Int
  endTime : Nat → Int
  failuresAllowed : Nat
  capacity : Nat → Nat

/-- The mutable Builder state: the plan, the running_edges_ map, the
command_start_time_ edge fields, the build-log records written so far
(edge, start, end, record_mtime), the failed-edge labels and the command
runner queue (DryRunCommandRunner queue / subproc_to_edge_, reaped in FIFO
order). -/
structure BuilderState where
  plan : PlanState
  runningEdges : List (Nat × Int)
  commandStartTime : Nat → Int
  journal : List (Nat × Int × Int × Int)
  failedEdges : List (List Char)
  queue : List Nat

def runningFind : List (Nat × Int) → Nat → Option Int
  | [], _ => none
  | (k, v) :: rest, e => if e = k then some v else runningFind rest e

def runningErase : List (Nat × Int) → Nat → List (Nat × Int)
  | [], _ => []
  | (k, v) :: rest, e => if e = k then rest else (k, v) :: runningErase rest e

/-- The non-order-only inputs of an edge: inputs_.begin() up to
inputs_.end() - order_only_deps_ (build.cc 285-287). -/
def nonOrderOnly (g : Graph) (e : Nat) : List Nat :=
  (g.edge e).inputs.take ((g.edge e).inputs.length - (g.edge e).orderOnlyDeps)

/-- The most_recent_input scan of Plan::CleanNode (build.cc 295-299): the
first input with the maximal mtime. -/
def mostRecentInput (g : Graph) (l : List Nat) : Option Nat :=
  l.foldl (fun acc i =>
    match acc with
    | none => some i
    | some m => if (g.node m).mtime < (g.node i).mtime then some i else some m) none

mutual

/-- Embedding of Plan::CleanNode (build.cc 269-324) and its two loops; the
DependencyScan::RecomputeOutputsDirty call is the oracle (graph.cc is not
part of src/), and its error return leaves the modelled fragment. -/
def cleanNode (g : Graph) (env : BuildEnv) : Nat → PlanState → Nat → String →
    Option (PlanState × String × Bool)
  | 0, _, _, _ => none
  | fuel + 1, st, n, err =>
    let st0 := { st with dirty := fun i => if i = n then false else st.dirty i }
    cleanOutEdges g env fuel st0 (g.node n).outEdges err

/-- The out-edge loop of Plan::CleanNode (build.cc 272-322). -/
def cleanOutEdges (g : Graph) (env : BuildEnv) : Nat → PlanState → List Nat → String →
    Option (PlanState × String × Bool)
  | 0, _, _, _ => none
  | _ + 1, st, [], err => some (st, err, true)
  | fuel + 1, st, oe :: oes, err =>
    match wantFind st.want oe with
    | none => cleanOutEdges g env fuel st oes err
    | some w =>
      if w = Want.nothing then cleanOutEdges g env fuel st oes err
      else if (g.edge oe).depsMissing = true then cleanOutEdges g env fuel st oes err
      else
        if (nonOrderOnly g oe).all (fun i => !(st.dirty i)) = true then
          match env.recomputeOutputsDirty oe (mostRecentInput g (nonOrderOnly g oe)) with
          | none => none
          | some true => cleanOutEdges g env fuel st oes err
          | some false =>
            match cleanOutputs g env fuel st (g.edge oe).outputs err with
            | none => none
            | some (st2, err2, ok) =>
              if ok = false then some (st2, err2, false)
              else
                let st3 := { st2 with
                  want := wantSet st2.want oe Want.nothing,
                  wantedEdges := st2.wantedEdges - 1,
                  commandEdges := if (g.edge oe).phony then st2.commandEdges
                    else st2.commandEdges - 1 }
                cleanOutEdges g env fuel st3 oes err2
        else cleanOutEdges g env fuel st oes err

/-- The recursive output-cleaning loop of Plan::CleanNode (build.cc 310-314). -/
def cleanOutputs (g : Graph) (env : BuildEnv) : Nat → PlanState → List Nat → String →
    Option (PlanState × String × Bool)
  | 0, _, _, _ => none
  | _ + 1, st, [], err => some (st, err, true)
  | fuel + 1, st, o :: os, err =>
    match cleanNode g env fuel st o err with
    | none => none
    | some (st2, err2, ok) =>
      if ok = false then some (st2, err2, false)
      else cleanOutputs g env fuel st2 os err2

end

/-- The restat loop of Builder::FinishCommand (build.cc 1146-1163),
threading the running record_mtime and the node_cleaned flag. -/
def restatLoop (g : Graph) (env : BuildEnv) (fuel : Nat) (restat : Bool) :
    List Nat → PlanState → Int → Bool → String →
    Option (PlanState × Int × Bool × String × Bool)
  | [], st, rm, nc, err => some (st, rm, nc, err, true)
  | o :: os, st, rm, nc, err =>
    let newM := env.stat o
    if newM = -1 then some (st, rm, nc, env.statErr, false)
    else
      let rm2 := if rm < newM then newM else rm
      if (g.node o).mtime = newM ∧ restat = true then
        match cleanNode g env fuel st o err with
        | none => none
        | some (st2, err2, ok) =>
          if ok = false then some (st2, rm2, nc, err2, false)
          else restatLoop g env fuel restat os st2 rm2 true err2
      else restatLoop g env fuel restat os st rm2 nc err

/-- The deps-log loop of Builder::FinishCommand (build.cc 1191-1200); it
only touches the disk and the deps log, so it returns the message and the
verdict. -/
def depsLoop (env : BuildEnv) : List Nat → String → String × Bool
  | [], err => (err, true)
  | o :: os, err =>
    if env.stat o = -1 then (env.statErr, false)
    else if env.depsRecordOk o = false then
      ("Error writing to deps log: " ++ env.errnoStr, false)
    else depsLoop env os err

/-- The success verdict after dependency extraction (build.cc 1107-1117):
a successful result is downgraded to a failure when a deps binding is
present and extraction fails. -/
def effSuccess (g : Graph) (env : BuildEnv) (e : Nat) (success : Bool) : Bool :=
  success && (((g.edge e).depsType = "") || env.extractOk e)

/-- Embedding of Builder::FinishCommand (build.cc 1094-1203). -/
def finishCommand (g : Graph) (env : BuildEnv) (fuel : Nat) (bs : BuilderState)
    (e : Nat) (success : Bool) (err : String) : Option (BuilderState × String × Bool) :=
  let success2 := effSuccess g env e success
  match runningFind bs.runningEdges e with
  | none => none
  | some startT =>
    let bs1 := { bs with runningEdges := runningErase bs.runningEdges e }
    if success2 = false then
      match edgeFinished g fuel bs1.plan e false err with
      | none => none
      | some (p2, err2, ok) => some ({ bs1 with plan := p2 }, err2, ok)
    else
      let s := bs.commandStartTime e
      match (if env.dryRun = true then some (bs1.plan, (0 : Int), false, err, true)
             else if s = 0 ∨ (g.edge e).restat = true ∨ (g.edge e).generator = true then
               restatLoop g env fuel (g.edge e).restat (g.edge e).outputs bs1.plan s false err
             else some (bs1.plan, s, false, err, true)) with
      | none => none
      | some (p1, rm0, nc, err1, okR) =>
        if okR = false then some ({ bs1 with plan := p1 }, err1, false)
        else
          let rm := if nc = true then s else rm0
          match edgeFinished g fuel p1 e true err1 with
          | none => none
          | some (p2, err2, ok2) =>
            if ok2 = false then some ({ bs1 with plan := p2 }, err2, false)
            else
              if env.logPresent = true ∧ env.recordOk = false then
                some ({ bs1 with plan := p2 },
                  "Error writing to build log: " ++ env.errnoStr, false)
              else
                let bs2 := { bs1 with
                  plan := p2,
                  journal := if env.logPresent = true then
                    bs1.journal ++ [(e, startT, env.endTime e, rm)] else bs1.journal }
                if (g.edge e).depsType = "" ∨ env.dryRun = true then some (bs2, err2, true)
                else
                  if (g.edge e).outputs = [] then none
                  else
                    let d := depsLoop env (g.edge e).outputs err2
                    some (bs2, d.1, d.2)

theorem if_lt_max (a b : Int) : (if a < b then b else a) = max a b := by
  rcases lt_or_ge a b with h | h
  · rw [if_pos h, max_eq_right h.le]
  · rw [if_neg (not_lt.mpr h), max_eq_left h]

/-- A terminating restat loop computes the running maximum of the stamp and
the outputs mtimes, and sets node_cleaned exactly when a restat rule saw an
output whose recorded mtime equals its disk mtime. -/
theorem restatLoop_spec (g : Graph) (env : BuildEnv) (fuel : Nat) (restat : Bool) :
    ∀ (os : List Nat) (st : PlanState) (rm : Int) (nc : Bool) (err : String)
      (st2 : PlanState) (rm2 : Int) (nc2 : Bool) (err2 : String),
    restatLoop g env fuel restat os st rm nc err = some (st2, rm2, nc2, err2, true) →
    rm2 = os.foldl (fun r o => max r (env.stat o)) rm ∧
      (nc2 = true ↔ (nc = true ∨ (restat = true ∧ ∃ o ∈ os, (g.node o).mtime = env.stat o))) := by
  intro os
  induction os with
  | nil =>
    intro st rm nc err st2 rm2 nc2 err2 h
    simp only [restatLoop, Option.some.injEq, Prod.mk.injEq] at h
    refine ⟨h.2.1.symm, ?_⟩
    rw [← h.2.2.1]
    simp
  | cons o os ih =>
    intro st rm nc err st2 rm2 nc2 err2 h
    simp only [restatLoop] at h
    by_cases hm1 : env.stat o = -1
    · rw [if_pos hm1] at h
      simp at h
    · rw [if_neg hm1] at h
      by_cases hc : (g.node o).mtime = env.stat o ∧ restat = true
      · rw [if_pos hc] at h
        cases hcn : cleanNode g env fuel st o err with
        | none => rw [hcn] at h; cases h
        | some r =>
          obtain ⟨stc, errc, okc⟩ := r
          rw [hcn] at h
          dsimp only at h
          by_cases hok : okc = false
          · rw [if_pos hok] at h
            simp at h
          · rw [if_neg hok] at h
            obtain ⟨ha, hb⟩ := ih _ _ _ _ _ _ _ _ h
            constructor
            · rw [List.foldl_cons, ha, if_lt_max]
            · constructor
              · intro _
                exact Or.inr ⟨hc.2, o, by simp, hc.1⟩
              · intro _
                exact hb.mpr (Or.inl rfl)
      · rw [if_neg hc] at h
        obtain ⟨ha, hb⟩ := ih _ _ _ _ _ _ _ _ h
        constructor
        · rw [List.foldl_cons, ha, if_lt_max]
        · rw [hb]
          constructor
          · rintro (h1 | ⟨h2, o2, ho2, he2⟩)
            · exact Or.inl h1
            · exact Or.inr ⟨h2, o2, List.mem_cons_of_mem o ho2, he2⟩
          · rintro (h1 | ⟨h2, o2, ho2, he2⟩)
            · exact Or.inl h1
            · rcases List.mem_cons.mp ho2 with h3 | h3
              · exact absurd ⟨h3 ▸ he2, h2⟩ hc
              · exact Or.inr ⟨h2, o2, h3, he2⟩

/-- The corrected record_mtime rule, written from the amended claim: 0 on a
dry run; otherwise the lock-file stamp captured at edge start, except that
a zero stamp or a restat or generator rule restates the outputs and takes
the maximum of the stamp and their mtimes, and a restat rule that saw an
unchanged output restores the stamp. -/
def specRecordMtime (g : Graph) (env : BuildEnv) (cst : Int) (e : Nat) : Int :=
  if env.dryRun = true then 0
  else if cst = 0 ∨ (g.edge e).restat = true ∨ (g.edge e).generator = true then
    if (g.edge e).restat = true ∧
        ((g.edge e).outputs.any (fun o => (g.node o).mtime = env.stat o)) = true then cst
    else (g.edge e).outputs.foldl (fun r o => max r (env.stat o)) cst
  else cst

/-- C5 (amended): in a FinishCommand run that returns true, a build-log
record is appended exactly when the command succeeded after dependency
extraction and a build log is attached - including on dry runs, which
record record_mtime 0 - and the recorded record_mtime follows the corrected
rule of specRecordMtime. -/
theorem finishCommand_journal (g : Graph) (env : BuildEnv) (fuel : Nat)
    (bs : BuilderState) (e : Nat) (success : Bool) (err : String)
    (bs2 : BuilderState) (err2 : String) (startT : Int)
    (hrun : runningFind bs.runningEdges e = some startT)
    (h : finishCommand g env fuel bs e success err = some (bs2, err2, true)) :
    bs2.journal = if effSuccess g env e success = true ∧ env.logPresent = true
      then bs.journal ++ [(e, startT, env.endTime e,
        specRecordMtime g env (bs.commandStartTime e) e)]
      else bs.journal := by
  simp only [finishCommand] at h
  rw [hrun] at h
  dsimp only at h
  by_cases hs : effSuccess g env e success = false
  · rw [if_pos hs] at h
    rw [if_neg (fun hc => by rw [hc.1] at hs; cases hs)]
    cases he : edgeFinished g fuel
        ({ bs with runningEdges := runningErase bs.runningEdges e } : BuilderState).plan
        e false err with
    | none => rw [he] at h; cases h
    | some r =>
      obtain ⟨p2, e2, ok2⟩ := r
      rw [he] at h
      dsimp only at h
      simp only [Option.some.injEq, Prod.mk.injEq] at h
      have hb2 := h.1
      subst hb2
      rfl
  · rw [if_neg hs] at h
    have hs2 : effSuccess g env e success = true := by
      cases hv : effSuccess g env e success
      · exact absurd hv hs
      · rfl
    have hrm : ∀ (p1 : PlanState) (rm0 : Int) (nc : Bool) (err1 : String),
        (if env.dryRun = true then
            some (({ bs with runningEdges := runningErase bs.runningEdges e }
              : BuilderState).plan, (0 : Int), false, err, true)
         else if bs.commandStartTime e = 0 ∨ (g.edge e).restat = true ∨
             (g.edge e).generator = true then
           restatLoop g env fuel (g.edge e).restat (g.edge e).outputs
             ({ bs with runningEdges := runningErase bs.runningEdges e }
               : BuilderState).plan (bs.commandStartTime e) false err
         else some (({ bs with runningEdges := runningErase bs.runningEdges e }
              : BuilderState).plan, bs.commandStartTime e, false, err, true)) =
          some (p1, rm0, nc, err1, true) →
        (if nc = true then bs.commandStartTime e else rm0) =
          specRecordMtime g env (bs.commandStartTime e) e := by
      intro p1 rm0 nc err1 hr
      unfold specRecordMtime
      by_cases hdry : env.dryRun = true
      · rw [if_pos hdry] at hr
        rw [if_pos hdry]
        simp only [Option.some.injEq, Prod.mk.injEq] at hr
        rw [← hr.2.2.1, ← hr.2.1]
        simp
      · rw [if_neg hdry] at hr
        rw [if_neg hdry]
        by_cases hg : bs.commandStartTime e = 0 ∨ (g.edge e).restat = true ∨
            (g.edge e).generator = true
        · rw [if_pos hg] at hr
          rw [if_pos hg]
          obtain ⟨ha, hb⟩ := restatLoop_spec g env fuel (g.edge e).restat
            (g.edge e).outputs _ _ _ _ _ _ _ _ hr
          by_cases hnc : nc = true
          · rw [if_pos hnc]
            have hex := hb.mp hnc
            rcases hex with hex | hex
            · cases hex
            · rw [if_pos ?_]
              refine ⟨hex.1, ?_⟩
              rw [List.any_eq_true]
              obtain ⟨o, ho, heq⟩ := hex.2
              exact ⟨o, ho, by simpa using heq⟩
          · rw [if_neg hnc]
            rw [if_neg ?_]
            · exact ha
            · intro hcond
              apply hnc
              rw [hb]
              refine Or.inr ⟨hcond.1, ?_⟩
              rw [List.any_eq_true] at hcond
              obtain ⟨o, ho, heq⟩ := hcond.2
              exact ⟨o, ho, by simpa using heq⟩
        · rw [if_neg hg] at hr
          rw [if_neg hg]
          simp only [Option.some.injEq, Prod.mk.injEq] at hr
          rw [← hr.2.2.1, ← hr.2.1]
          simp
    cases hrp : (if env.dryRun = true then
            some (({ bs with runningEdges := runningErase bs.runningEdges e }
              : BuilderState).plan, (0 : Int), false, err, true)
         else if bs.commandStartTime e = 0 ∨ (g.edge e).restat = true ∨
             (g.edge e).generator = true then
           restatLoop g env fuel (g.edge e).restat (g.edge e).outputs
             ({ bs with runningEdges := runningErase bs.runningEdges e }
               : BuilderState).plan (bs.commandStartTime e) false err
         else some (({ bs with runningEdges := runningErase bs.runningEdges e }
              : BuilderState).plan, bs.commandStartTime e, false, err, true)) with
    | none => rw [hrp] at h; cases h
    | some q =>
      obtain ⟨p1, rm0, nc, err1, okR⟩ := q
      rw [hrp] at h
      dsimp only at h
      by_cases hokR : okR = false
      · rw [if_pos hokR] at h
        simp at h
      · rw [if_neg hokR] at h
        have hokR2 : okR = true := by
          cases okR
          · exact absurd rfl hokR
          · rfl
        subst hokR2
        have hrmv := hrm p1 rm0 nc err1 hrp
        cases hef : edgeFinished g fuel p1 e true err1 with
        | none => rw [hef] at h; cases h
        | some r2 =>
          obtain ⟨p2, e2, ok2⟩ := r2
          rw [hef] at h
          dsimp only at h
          by_cases hok2 : ok2 = false
          · rw [if_pos hok2] at h
            simp at h
          · rw [if_neg hok2] at h
            by_cases hlr : env.logPresent = true ∧ env.recordOk = false
            · rw [if_pos hlr] at h
              simp at h
            · rw [if_neg hlr] at h
              by_cases hde : (g.edge e).depsType = "" ∨ env.dryRun = true
              · rw [if_pos hde] at h
                simp only [Option.some.injEq, Prod.mk.injEq] at h
                have hb2 := h.1
                subst hb2
                show (if env.logPresent = true then
                    bs.journal ++ [(e, startT, env.endTime e,
                      if nc = true then bs.commandStartTime e else rm0)]
                  else bs.journal) =
                  if effSuccess g env e success = true ∧ env.logPresent = true
                  then bs.journal ++ [(e, startT, env.endTime e,
                    specRecordMtime g env (bs.commandStartTime e) e)]
                  else bs.journal
                by_cases hlp : env.logPresent = true
                · have hcond : effSuccess g env e success = true ∧
                      env.logPresent = true := ⟨hs2, hlp⟩
                  rw [if_pos hlp, if_pos hcond, hrmv]
                · have hcond : ¬ (effSuccess g env e success = true ∧
                      env.logPresent = true) := fun hc => hlp hc.2
                  rw [if_neg hlp, if_neg hcond]
              · rw [if_neg hde] at h
                by_cases hoe : (g.edge e).outputs = []
                · rw [if_pos hoe] at h
                  cases h
                · rw [if_neg hoe] at h
                  simp only [Option.some.injEq, Prod.mk.injEq] at h
                  have hb2 := h.1
                  subst hb2
                  show (if env.logPresent = true then
                      bs.journal ++ [(e, startT, env.endTime e,
                        if nc = true then bs.commandStartTime e else rm0)]
                    else bs.journal) =
                    if effSuccess g env e success = true ∧ env.logPresent = true
                    then bs.journal ++ [(e, startT, env.endTime e,
                      specRecordMtime g env (bs.commandStartTime e) e)]
                    else bs.journal
                  by_cases hlp : env.logPresent = true
                  · have hcond : effSuccess g env e success = true ∧
                        env.logPresent = true := ⟨hs2, hlp⟩
                    rw [if_pos hlp, if_pos hcond, hrmv]
                  · have hcond : ¬ (effSuccess g env e success = true ∧
                        env.logPresent = true) := fun hc => hlp hc.2
                    rw [if_neg hlp, if_neg hcond]

def gD : Graph :=
  ⟨[⟨"out", some 0, [], false, false, 0⟩],
   [⟨[], 0, [0], false, 0, false, false, false, "", "cc", false⟩], []⟩

def envD : BuildEnv :=
  { dryRun := true, logPresent := true, recordOk := true,
    depsRecordOk := fun _ => true, extractOk := fun _ => true,
    stat := fun _ => 1, statErr := "stat: input/output error",
    recomputeOutputsDirty := fun _ _ => some false, errnoStr := "EIO",
    makeDirsOk := fun _ => true, lockStat := 3,
    writeRspOk := fun _ => true, subprocAddOk := fun _ => true,
    evalCommand := fun _ => "cc -c x", result := fun _ => some true,
    startTime := fun _ => 5, endTime := fun _ => 7,
    failuresAllowed := 1, capacity := fun _ => 1 }

def bsD : BuilderState :=
  { plan := { planState0 with
      want := [(0, Want.toFinish)],
      wantedEdges := 1,
      commandEdges := 1 },
    runningEdges := [(0, 5)],
    commandStartTime := fun _ => 3,
    journal := [],
    failedEdges := [],
    queue := [] }

/-- C5 counterexample: a dry-run FinishCommand of a successful edge still
writes a build-log record (with record_mtime 0), refuting the claim that a
record is written only when the build is not a dry run. -/
theorem finishCommand_dryRun_counterexample :
    envD.dryRun = true ∧
      (finishCommand gD envD 9 bsD 0 true "").map (fun r => (r.1.journal, r.2.2)) =
        some ([(0, 5, 7, 0)], true) :=
  ⟨rfl, rfl⟩

def fc5 : BuilderState × String × Bool :=
  match finishCommand gD envD 9 bsD 0 true "" with
  | some r => r
  | none => (bsD, "", false)

/-- Witness for the amended C5 theorem on a concrete dry-run record. -/
theorem finishCommand_journal_witness :
    (runningFind bsD.runningEdges 0 = some 5 ∧
      finishCommand gD envD 9 bsD 0 true "" = some (fc5.1, fc5.2.1, true)) ∧
      fc5.1.journal = (if effSuccess gD envD 0 true = true ∧ envD.logPresent = true
        then bsD.journal ++ [(0, 5, envD.endTime 0,
          specRecordMtime gD envD (bsD.commandStartTime 0) 0)]
        else bsD.journal) :=
  ⟨⟨rfl, rfl⟩, finishCommand_journal gD envD 9 bsD 0 true "" fc5.1 fc5.2.1 5 rfl rfl⟩

/-- Modelled from the spec: Plan::more_to_do() (build.h is not part of
src/): there is work left while both counters are positive. -/
def moreToDo (st : PlanState) : Bool :=
  decide (0 < st.wantedEdges) && decide (0 < st.commandEdges)

/-- The output-directory loop of Builder::StartEdge (build.cc 1062-1072):
MakeDirs for every output, and on the first output the lock file is
touched and stat-ed (a failed stat degrades to 0). -/
def startEdgeDirs (env : BuildEnv) : List Nat → Int → Option Int
  | [], b => some b
  | o :: os, b =>
    if env.makeDirsOk o = false then none
    else startEdgeDirs env os
      (if b = -1 then (if env.lockStat = -1 then 0 else env.lockStat) else b)

/-- Embedding of Builder::StartEdge (build.cc 1047-1092); the runner queue
holds the started commands in FIFO order (DryRunCommandRunner queue at
build.cc 62-92; for RealCommandRunner the subprocess completion order is
modelled from the spec as FIFO). -/
def startEdge (g : Graph) (env : BuildEnv) (bs : BuilderState) (e : Nat) (err : String) :
    BuilderState × String × Bool :=
  if (g.edge e).phony = true then (bs, err, true)
  else
    let bs1 := { bs with runningEdges := bs.runningEdges ++ [(e, env.startTime e)] }
    match startEdgeDirs env (g.edge e).outputs (-1) with
    | none => (bs1, err, false)
    | some buildStart =>
      let bs2 := { bs1 with
        commandStartTime := fun i => if i = e then buildStart else bs1.commandStartTime i }
      if (g.edge e).rspfile = true ∧ env.writeRspOk e = false then (bs2, err, false)
      else if env.dryRun = false ∧ env.subprocAddOk e = false then
        (bs2, "command \x27" ++ env.evalCommand e ++ "\x27 failed.", false)
      else ({ bs2 with queue := bs2.queue ++ [e] }, err, true)

/-- The inner start loop of Builder::Build (build.cc 943-974); the verdict
false means Build returns false here. -/
def buildStartLoop (g : Graph) (env : BuildEnv) : Nat → BuilderState → Nat → Nat → String →
    Option (BuilderState × Nat × String × Bool)
  | 0, _, _, _, _ => none
  | fuel + 1, bs, pending, capacity, err =>
    if capacity = 0 then some (bs, pending, err, true)
    else
      match findWork bs.plan with
      | none => some (bs, pending, err, true)
      | some (e, p2) =>
        let bs1 := { bs with plan := p2 }
        let r := startEdge g env bs1 e err
        if r.2.2 = false then some (r.1, pending, r.2.1, false)
        else
          if (g.edge e).phony = true then
            match edgeFinished g fuel r.1.plan e true r.2.1 with
            | none => none
            | some (p3, err3, ok3) =>
              if ok3 = false then some ({ r.1 with plan := p3 }, pending, err3, false)
              else buildStartLoop g env fuel { r.1 with plan := p3 } pending capacity err3
          else
            buildStartLoop g env fuel r.1 (pending + 1)
              (min (capacity - 1) (env.capacity r.1.queue.length)) err

/-- The no-progress error text of Builder::Build (build.cc 1011-1019). -/
def failMessage (env : BuildEnv) (failed : List (List Char)) : String :=
  let failedStr := failed.foldl (fun acc nm => acc ++ " \"" ++ String.mk nm ++ "\" ") ""
  if 1 < env.failuresAllowed then
    "subcommands failed\n ----- These parts have an errors: " ++ failedStr ++ " -----"
  else
    "subcommand failed\n ----- This part has an error: " ++ failedStr ++ " -----"

/-- The main loop of Builder::Build (build.cc 939-1029). -/
def buildLoop (g : Graph) (env : BuildEnv) : Nat → BuilderState → Nat → Nat → String →
    Option (BuilderState × String × Bool)
  | 0, _, _, _, _ => none
  | fuel + 1, bs, pending, failuresAllowed, err =>
    if moreToDo bs.plan = true then
      match (if failuresAllowed ≠ 0 then
          buildStartLoop g env fuel bs pending (env.capacity bs.queue.length) err
        else some (bs, pending, err, true)) with
      | none => none
      | some (bs1, pending1, err1, okS) =>
        if okS = false then some (bs1, err1, false)
        else
          if failuresAllowed ≠ 0 ∧ pending1 = 0 ∧ moreToDo bs1.plan = false then
            some (bs1, err1, true)
          else
            if pending1 ≠ 0 then
              match bs1.queue with
              | [] => some (bs1, "interrupted by user", false)
              | e :: qrest =>
                match (if env.dryRun = true then some true else env.result e) with
                | none => some (bs1, "interrupted by user", false)
                | some succ =>
                  match finishCommand g env fuel { bs1 with queue := qrest } e succ err1 with
                  | none => none
                  | some (bs3, err3, okF) =>
                    if okF = false then some (bs3, err3, false)
                    else
                      let bs4 := if succ = false then { bs3 with
                          failedEdges := bs3.failedEdges ++
                            [formatTargetName (g.edge e).rule.data] }
                        else bs3
                      let fa2 := if succ = false ∧ failuresAllowed ≠ 0 then
                          failuresAllowed - 1
                        else failuresAllowed
                      buildLoop g env fuel bs4 (pending1 - 1) fa2 err3
            else
              if failuresAllowed = 0 ∧ bs1.failedEdges ≠ [] then
                some (bs1, failMessage env bs1.failedEdges, false)
              else if failuresAllowed < env.failuresAllowed then
                some (bs1, "cannot make progress due to previous errors", false)
              else some (bs1, "stuck [this is a bug]", false)
    else some (bs, err, true)

/-- Embedding of Builder::Build (build.cc 915-1034): the initial assert
rejects an already-up-to-date plan, PrepareQueue runs first, and the main
loop starts with no pending commands and the configured failure budget. -/
def build (g : Graph) (env : BuildEnv) (fuel : Nat) (bs : BuilderState) (err : String) :
    Option (BuilderState × String × Bool) :=
  if moreToDo bs.plan = false then none
  else
    match prepareQueue g fuel bs.plan with
    | none => none
    | some p2 => buildLoop g env fuel { bs with plan := p2 } 0 env.failuresAllowed err

theorem append_left_ne_empty (a b : String) (ha : a ≠ "") : a ++ b ≠ "" := by
  intro hc
  apply ha
  obtain ⟨la⟩ := a
  obtain ⟨lb⟩ := b
  have h2 : la ++ lb = [] := congrArg String.data hc
  have h3 := List.append_eq_nil.mp h2
  rw [h3.1]

/-- The Plan::EdgeFinished family never returns false inside the modelled
fragment: the only false returns of the C++ come through the dyndep loader,
which is outside the model. -/
theorem ef_family_ok (g : Graph) : ∀ fuel : Nat,
    (∀ st e succ err r, edgeFinished g fuel st e succ err = some r → r.2.2 = true) ∧
    (∀ st os err r, nodeFinishedList g fuel st os err = some r → r.2.2 = true) ∧
    (∀ st n err r, nodeFinished g fuel st n err = some r → r.2.2 = true) ∧
    (∀ st oes err r, edgeMaybeReadyList g fuel st oes err = some r → r.2.2 = true) ∧
    (∀ st e err r, edgeMaybeReady g fuel st e err = some r → r.2.2 = true) := by
  intro fuel
  induction fuel with
  | zero =>
    refine ⟨?_, ?_, ?_, ?_, ?_⟩
    · intro st e succ err r h; simp [edgeFinished] at h
    · intro st os err r h; simp [nodeFinishedList] at h
    · intro st n err r h; simp [nodeFinished] at h
    · intro st oes err r h; simp [edgeMaybeReadyList] at h
    · intro st e err r h; simp [edgeMaybeReady] at h
  | succ fuel ih =>
    obtain ⟨ih1, ih2, ih3, ih4, ih5⟩ := ih
    refine ⟨?_, ?_, ?_, ?_, ?_⟩
    · intro st e succ err r h
      simp only [edgeFinished] at h
      cases hw : wantFind st.want e with
      | none => rw [hw] at h; cases h
      | some w =>
        rw [hw] at h
        dsimp only at h
        by_cases hsuc : succ = false
        · rw [if_pos hsuc] at h
          exact (congrArg (fun t => t.2.2) (Option.some.inj h)).symm
        · rw [if_neg hsuc] at h
          exact ih2 _ _ _ _ h
    · intro st os err r h
      match os with
      | [] =>
        simp only [nodeFinishedList] at h
        exact (congrArg (fun t => t.2.2) (Option.some.inj h)).symm
      | o :: os2 =>
        simp only [nodeFinishedList] at h
        cases hnf : nodeFinished g fuel st o err with
        | none => rw [hnf] at h; cases h
        | some r2 =>
          obtain ⟨st2, err2, ok⟩ := r2
          rw [hnf] at h
          dsimp only at h
          have hok := ih3 _ _ _ _ hnf
          rw [show ((st2, err2, ok) : PlanState × String × Bool).2.2 = ok from rfl] at hok
          subst hok
          rw [if_neg (by decide : ¬ ((true : Bool) = false))] at h
          exact ih2 _ _ _ _ h
    · intro st n err r h
      simp only [nodeFinished] at h
      by_cases hd : (g.node n).dyndepPending = true
      · rw [if_pos hd] at h; cases h
      · rw [if_neg hd] at h
        exact ih4 _ _ _ _ h
    · intro st oes err r h
      match oes with
      | [] =>
        simp only [edgeMaybeReadyList] at h
        exact (congrArg (fun t => t.2.2) (Option.some.inj h)).symm
      | oe :: oes2 =>
        simp only [edgeMaybeReadyList] at h
        cases hw : wantFind st.want oe with
        | none =>
          rw [hw] at h
          exact ih4 _ _ _ _ h
        | some w =>
          rw [hw] at h
          dsimp only at h
          cases hmr : edgeMaybeReady g fuel st oe err with
          | none => rw [hmr] at h; cases h
          | some r2 =>
            obtain ⟨st2, err2, ok⟩ := r2
            rw [hmr] at h
            dsimp only at h
            have hok := ih5 _ _ _ _ hmr
            rw [show ((st2, err2, ok) : PlanState × String × Bool).2.2 = ok from rfl] at hok
            subst hok
            rw [if_neg (by decide : ¬ ((true : Bool) = false))] at h
            exact ih4 _ _ _ _ h
    · intro st e err r h
      simp only [edgeMaybeReady] at h
      by_cases hair : allInputsReady g st e = true
      · rw [if_pos hair] at h
        cases hw : wantFind st.want e with
        | none => rw [hw] at h; cases h
        | some w =>
          rw [hw] at h
          dsimp only at h
          by_cases hn : w = Want.nothing
          · rw [if_pos hn] at h
            exact ih1 _ _ _ _ _ h
          · rw [if_neg hn] at h
            cases hs : scheduleWork g st e with
            | none => rw [hs] at h; cases h
            | some st2 =>
              rw [hs] at h
              exact (congrArg (fun t => t.2.2) (Option.some.inj h)).symm
      · rw [if_neg hair] at h
        exact (congrArg (fun t => t.2.2) (Option.some.inj h)).symm

/-- The Plan::CleanNode family never returns false inside the modelled
fragment: the only false returns of the C++ come through the scan, which is
outside the model. -/
theorem clean_family_ok (g : Graph) (env : BuildEnv) : ∀ fuel : Nat,
    (∀ st n err r, cleanNode g env fuel st n err = some r → r.2.2 = true) ∧
    (∀ st oes err r, cleanOutEdges g env fuel st oes err = some r → r.2.2 = true) ∧
    (∀ st os err r, cleanOutputs g env fuel st os err = some r → r.2.2 = true) := by
  intro fuel
  induction fuel with
  | zero =>
    refine ⟨?_, ?_, ?_⟩
    · intro st n err r h; simp [cleanNode] at h
    · intro st oes err r h; simp [cleanOutEdges] at h
    · intro st os err r h; simp [cleanOutputs] at h
  | succ fuel ih =>
    obtain ⟨ih1, ih2, ih3⟩ := ih
    refine ⟨?_, ?_, ?_⟩
    · intro st n err r h
      simp only [cleanNode] at h
      exact ih2 _ _ _ _ h
    · intro st oes err r h
      match oes with
      | [] =>
        simp only [cleanOutEdges] at h
        exact (congrArg (fun t => t.2.2) (Option.some.inj h)).symm
      | oe :: oes2 =>
        simp only [cleanOutEdges] at h
        cases hw : wantFind st.want oe with
        | none =>
          rw [hw] at h
          exact ih2 _ _ _ _ h
        | some w =>
          rw [hw] at h
          dsimp only at h
          by_cases hn : w = Want.nothing
          · rw [if_pos hn] at h
            exact ih2 _ _ _ _ h
          · rw [if_neg hn] at h
            by_cases hdm : (g.edge oe).depsMissing = true
            · rw [if_pos hdm] at h
              exact ih2 _ _ _ _ h
            · rw [if_neg hdm] at h
              by_cases hcl : ((nonOrderOnly g oe).all fun i => !st.dirty i) = true
              · rw [if_pos hcl] at h
                cases hro : env.recomputeOutputsDirty oe
                    (mostRecentInput g (nonOrderOnly g oe)) with
                | none => rw [hro] at h; cases h
                | some dirty =>
                  rw [hro] at h
                  cases dirty with
                  | true =>
                    exact ih2 _ _ _ _ h
                  | false =>
                    dsimp only at h
                    cases hco : cleanOutputs g env fuel st (g.edge oe).outputs err with
                    | none => rw [hco] at h; cases h
                    | some r2 =>
                      obtain ⟨st2, err2, ok⟩ := r2
                      rw [hco] at h
                      dsimp only at h
                      have hok := ih3 _ _ _ _ hco
                      rw [show ((st2, err2, ok) : PlanState × String × Bool).2.2 = ok
                        from rfl] at hok
                      subst hok
                      rw [if_neg (by decide : ¬ ((true : Bool) = false))] at h
                      exact ih2 _ _ _ _ h
              · rw [if_neg hcl] at h
                exact ih2 _ _ _ _ h
    · intro st os err r h
      match os with
      | [] =>
        simp only [cleanOutputs] at h
        exact (congrArg (fun t => t.2.2) (Option.some.inj h)).symm
      | o :: os2 =>
        simp only [cleanOutputs] at h
        cases hcn : cleanNode g env fuel st o err with
        | none => rw [hcn] at h; cases h
        | some r2 =>
          obtain ⟨st2, err2, ok⟩ := r2
          rw [hcn] at h
          dsimp only at h
          have hok := ih1 _ _ _ _ hcn
          rw [show ((st2, err2, ok) : PlanState × String × Bool).2.2 = ok from rfl] at hok
          subst hok
          rw [if_neg (by decide : ¬ ((true : Bool) = false))] at h
          exact ih3 _ _ _ _ h

/-- A restat loop that returns false does so on a failed disk stat, whose
message it reports. -/
theorem restatLoop_false_err (g : Graph) (env : BuildEnv) (fuel : Nat) (restat : Bool) :
    ∀ (os : List Nat) (st : PlanState) (rm : Int) (nc : Bool) (err : String)
      (st2 : PlanState) (rm2 : Int) (nc2 : Bool) (err2 : String),
    restatLoop g env fuel restat os st rm nc err = some (st2, rm2, nc2, err2, false) →
    err2 = env.statErr := by
  intro os
  induction os with
  | nil =>
    intro st rm nc err st2 rm2 nc2 err2 h
    simp [restatLoop] at h
  | cons o os ih =>
    intro st rm nc err st2 rm2 nc2 err2 h
    simp only [restatLoop] at h
    by_cases hm1 : env.stat o = -1
    · rw [if_pos hm1] at h
      simp only [Option.some.injEq, Prod.mk.injEq] at h
      exact h.2.2.2.1.symm
    · rw [if_neg hm1] at h
      by_cases hc : (g.node o).mtime = env.stat o ∧ restat = true
      · rw [if_pos hc] at h
        cases hcn : cleanNode g env fuel st o err with
        | none => rw [hcn] at h; cases h
        | some r =>
          obtain ⟨stc, errc, okc⟩ := r
          rw [hcn] at h
          dsimp only at h
          have hok := (clean_family_ok g env fuel).1 _ _ _ _ hcn
          rw [show ((stc, errc, okc) : PlanState × String × Bool).2.2 = okc from rfl] at hok
          subst hok
          rw [if_neg (by decide : ¬ ((true : Bool) = false))] at h
          exact ih _ _ _ _ _ _ _ _ h
      · rw [if_neg hc] at h
        exact ih _ _ _ _ _ _ _ _ h

/-- A failing deps-log pass reports the stat message or the deps-log write
message. -/
theorem depsLoop_false_err (env : BuildEnv) : ∀ (os : List Nat) (err : String),
    (depsLoop env os err).2 = false →
    (depsLoop env os err).1 = env.statErr ∨
      (depsLoop env os err).1 = "Error writing to deps log: " ++ env.errnoStr := by
  intro os
  induction os with
  | nil =>
    intro err h
    simp [depsLoop] at h
  | cons o os ih =>
    intro err h
    simp only [depsLoop] at h ⊢
    by_cases hm1 : env.stat o = -1
    · rw [if_pos hm1] at h ⊢
      exact Or.inl rfl
    · rw [if_neg hm1] at h ⊢
      by_cases hdr : env.depsRecordOk o = false
      · rw [if_pos hdr] at h ⊢
        exact Or.inr rfl
      · rw [if_neg hdr] at h ⊢
        exact ih _ h

/-- A FinishCommand run that returns false leaves a non-empty error
message, provided a failed disk stat reports one. -/
theorem finishCommand_err (g : Graph) (env : BuildEnv) (fuel : Nat)
    (bs : BuilderState) (e : Nat) (success : Bool) (err : String)
    (bs2 : BuilderState) (err2 : String)
    (hstat : env.statErr ≠ "")
    (h : finishCommand g env fuel bs e success err = some (bs2, err2, false)) :
    err2 ≠ "" := by
  simp only [finishCommand] at h
  cases hrun : runningFind bs.runningEdges e with
  | none => rw [hrun] at h; cases h
  | some startT =>
    rw [hrun] at h
    dsimp only at h
    by_cases hs : effSuccess g env e success = false
    · rw [if_pos hs] at h
      cases he : edgeFinished g fuel
          ({ bs with runningEdges := runningErase bs.runningEdges e } : BuilderState).plan
          e false err with
      | none => rw [he] at h; cases h
      | some r =>
        obtain ⟨p2, e2, ok2⟩ := r
        rw [he] at h
        dsimp only at h
        have hok := (ef_family_ok g fuel).1 _ _ _ _ _ he
        rw [show ((p2, e2, ok2) : PlanState × String × Bool).2.2 = ok2 from rfl] at hok
        subst hok
        simp at h
    · rw [if_neg hs] at h
      cases hrp : (if env.dryRun = true then
              some (({ bs with runningEdges := runningErase bs.runningEdges e }
                : BuilderState).plan, (0 : Int), false, err, true)
           else if bs.commandStartTime e = 0 ∨ (g.edge e).restat = true ∨
               (g.edge e).generator = true then
             restatLoop g env fuel (g.edge e).restat (g.edge e).outputs
               ({ bs with runningEdges := runningErase bs.runningEdges e }
                 : BuilderState).plan (bs.commandStartTime e) false err
           else some (({ bs with runningEdges := runningErase bs.runningEdges e }
                : BuilderState).plan, bs.commandStartTime e, false, err, true)) with
      | none => rw [hrp] at h; cases h
      | some q =>
        obtain ⟨p1, rm0, nc, err1, okR⟩ := q
        rw [hrp] at h
        dsimp only at h
        by_cases hokR : okR = false
        · rw [if_pos hokR] at h
          simp only [Option.some.injEq, Prod.mk.injEq] at h
          have herr : err1 = env.statErr := by
            subst hokR
            by_cases hdry : env.dryRun = true
            · rw [if_pos hdry] at hrp
              simp at hrp
            · rw [if_neg hdry] at hrp
              by_cases hg : bs.commandStartTime e = 0 ∨ (g.edge e).restat = true ∨
                  (g.edge e).generator = true
              · rw [if_pos hg] at hrp
                exact restatLoop_false_err g env fuel (g.edge e).restat
                  (g.edge e).outputs _ _ _ _ _ _ _ _ hrp
              · rw [if_neg hg] at hrp
                simp at hrp
          rw [← h.2.1, herr]
          exact hstat
        · rw [if_neg hokR] at h
          cases hef : edgeFinished g fuel p1 e true err1 with
          | none => rw [hef] at h; cases h
          | some r2 =>
            obtain ⟨p2, e2, ok2⟩ := r2
            rw [hef] at h
            dsimp only at h
            have hok := (ef_family_ok g fuel).1 _ _ _ _ _ hef
            rw [show ((p2, e2, ok2) : PlanState × String × Bool).2.2 = ok2 from rfl] at hok
            subst hok
            rw [if_neg (by decide : ¬ ((true : Bool) = false))] at h
            by_cases hlr : env.logPresent = true ∧ env.recordOk = false
            · rw [if_pos hlr] at h
              simp only [Option.some.injEq, Prod.mk.injEq] at h
              rw [← h.2.1]
              exact append_left_ne_empty _ _ (by decide)
            · rw [if_neg hlr] at h
              by_cases hde : (g.edge e).depsType = "" ∨ env.dryRun = true
              · rw [if_pos hde] at h
                simp at h
              · rw [if_neg hde] at h
                by_cases hoe : (g.edge e).outputs = []
                · rw [if_pos hoe] at h
                  cases h
                · rw [if_neg hoe] at h
                  simp only [Option.some.injEq, Prod.mk.injEq] at h
                  have hfd : (depsLoop env (g.edge e).outputs e2).2 = false := h.2.2
                  rcases depsLoop_false_err env (g.edge e).outputs e2 hfd with hd | hd
                  · rw [← h.2.1, hd]
                    exact hstat
                  · rw [← h.2.1, hd]
                    exact append_left_ne_empty _ _ (by decide)

/-- When every MakeDirs call succeeds the directory loop of StartEdge
cannot fail. -/
theorem startEdgeDirs_some (env : BuildEnv) (hmk : ∀ o, env.makeDirsOk o = true) :
    ∀ (l : List Nat) (b : Int), ∃ v, startEdgeDirs env l b = some v := by
  intro l
  induction l with
  | nil => intro b; exact ⟨b, rfl⟩
  | cons o os ih =>
    intro b
    simp only [startEdgeDirs]
    rw [if_neg (by rw [hmk o]; decide)]
    exact ih _

/-- With directory creation and response-file writing succeeding, a false
return of StartEdge carries the non-empty failed-command message. -/
theorem startEdge_false_err (g : Graph) (env : BuildEnv) (bs : BuilderState)
    (e : Nat) (err : String)
    (hmk : ∀ o, env.makeDirsOk o = true)
    (hrsp : ∀ e2, env.writeRspOk e2 = true)
    (h : (startEdge g env bs e err).2.2 = false) :
    (startEdge g env bs e err).2.1 ≠ "" := by
  unfold startEdge at h ⊢
  by_cases hp : (g.edge e).phony = true
  · rw [if_pos hp] at h
    cases h
  · rw [if_neg hp] at h ⊢
    obtain ⟨v, hv⟩ := startEdgeDirs_some env hmk (g.edge e).outputs (-1)
    rw [hv] at h ⊢
    dsimp only at h ⊢
    have hrc : ¬ ((g.edge e).rspfile = true ∧ env.writeRspOk e = false) := by
      rintro ⟨h1, h2⟩
      rw [hrsp e] at h2
      cases h2
    rw [if_neg hrc] at h ⊢
    by_cases hsc : env.dryRun = false ∧ env.subprocAddOk e = false
    · rw [if_pos hsc] at h ⊢
      exact append_left_ne_empty _ _ (append_left_ne_empty _ _ (by decide))
    · rw [if_neg hsc] at h
      cases h

/-- A false verdict of the inner start loop carries a non-empty error. -/
theorem buildStartLoop_spec (g : Graph) (env : BuildEnv)
    (hmk : ∀ o, env.makeDirsOk o = true)
    (hrsp : ∀ e2, env.writeRspOk e2 = true) :
    ∀ (fuel : Nat) (bs : BuilderState) (pending capacity : Nat) (err : String)
      (bs2 : BuilderState) (pending2 : Nat) (err2 : String) (ok2 : Bool),
    buildStartLoop g env fuel bs pending capacity err = some (bs2, pending2, err2, ok2) →
    ok2 = false → err2 ≠ "" := by
  intro fuel
  induction fuel with
  | zero =>
    intro bs pending capacity err bs2 pending2 err2 ok2 h
    simp [buildStartLoop] at h
  | succ fuel ih =>
    intro bs pending capacity err bs2 pending2 err2 ok2 h hfalse
    subst hfalse
    simp only [buildStartLoop] at h
    by_cases hcap : capacity = 0
    · rw [if_pos hcap] at h
      simp at h
    · rw [if_neg hcap] at h
      cases hfw : findWork bs.plan with
      | none =>
        rw [hfw] at h
        simp at h
      | some r =>
        obtain ⟨e, p2⟩ := r
        rw [hfw] at h
        dsimp only at h
        by_cases hse : (startEdge g env { bs with plan := p2 } e err).2.2 = false
        · rw [if_pos hse] at h
          simp only [Option.some.injEq, Prod.mk.injEq] at h
          rw [← h.2.2.1]
          exact startEdge_false_err g env { bs with plan := p2 } e err hmk hrsp hse
        · rw [if_neg hse] at h
          by_cases hp : (g.edge e).phony = true
          · rw [if_pos hp] at h
            cases hef : edgeFinished g fuel
                (startEdge g env { bs with plan := p2 } e err).1.plan e true
                (startEdge g env { bs with plan := p2 } e err).2.1 with
            | none => rw [hef] at h; cases h
            | some r2 =>
              obtain ⟨p3, err3, ok3⟩ := r2
              rw [hef] at h
              dsimp only at h
              have hok := (ef_family_ok g fuel).1 _ _ _ _ _ hef
              rw [show ((p3, err3, ok3) : PlanState × String × Bool).2.2 = ok3
                from rfl] at hok
              subst hok
              rw [if_neg (by decide : ¬ ((true : Bool) = false))] at h
              exact ih _ _ _ _ _ _ _ _ h rfl
          · rw [if_neg hp] at h
            exact ih _ _ _ _ _ _ _ _ h rfl

/-- The main loop of Build: a true return leaves no more work, and a false
return leaves a non-empty error. -/
theorem buildLoop_spec (g : Graph) (env : BuildEnv)
    (hmk : ∀ o, env.makeDirsOk o = true)
    (hrsp : ∀ e2, env.writeRspOk e2 = true)
    (hstat : env.statErr ≠ "") :
    ∀ (fuel : Nat) (bs : BuilderState) (pending fa : Nat) (err : String)
      (bs2 : BuilderState) (err2 : String) (ok2 : Bool),
    buildLoop g env fuel bs pending fa err = some (bs2, err2, ok2) →
    (ok2 = true → moreToDo bs2.plan = false) ∧ (ok2 = false → err2 ≠ "") := by
  intro fuel
  induction fuel with
  | zero =>
    intro bs pending fa err bs2 err2 ok2 h
    simp [buildLoop] at h
  | succ fuel ih =>
    intro bs pending fa err bs2 err2 ok2 h
    simp only [buildLoop] at h
    by_cases hmt : moreToDo bs.plan = true
    · rw [if_pos hmt] at h
      cases hsl : (if fa ≠ 0 then
          buildStartLoop g env fuel bs pending (env.capacity bs.queue.length) err
        else some (bs, pending, err, true)) with
      | none => rw [hsl] at h; cases h
      | some q =>
        obtain ⟨bs1, pending1, err1, okS⟩ := q
        rw [hsl] at h
        dsimp only at h
        have hq : okS = false → err1 ≠ "" := by
          intro hf
          by_cases hfa : fa ≠ 0
          · rw [if_pos hfa] at hsl
            exact buildStartLoop_spec g env hmk hrsp _ _ _ _ _ _ _ _ _ hsl hf
          · rw [if_neg hfa] at hsl
            subst hf
            simp at hsl
        by_cases hokS : okS = false
        · rw [if_pos hokS] at h
          simp only [Option.some.injEq, Prod.mk.injEq] at h
          refine ⟨?_, ?_⟩
          · intro hc
            rw [← h.2.2] at hc
            cases hc
          · intro hc
            rw [← h.2.1]
            exact hq hokS
        · rw [if_neg hokS] at h
          by_cases hbr : fa ≠ 0 ∧ pending1 = 0 ∧ moreToDo bs1.plan = false
          · rw [if_pos hbr] at h
            simp only [Option.some.injEq, Prod.mk.injEq] at h
            refine ⟨?_, ?_⟩
            · intro hc
              rw [← h.1]
              exact hbr.2.2
            · intro hc
              rw [← h.2.2] at hc
              cases hc
          · rw [if_neg hbr] at h
            by_cases hpend : pending1 ≠ 0
            · rw [if_pos hpend] at h
              cases hqu : bs1.queue with
              | nil =>
                rw [hqu] at h
                simp only [Option.some.injEq, Prod.mk.injEq] at h
                refine ⟨?_, ?_⟩
                · intro hc
                  rw [← h.2.2] at hc
                  cases hc
                · intro hc
                  rw [← h.2.1]
                  decide
              | cons e qrest =>
                rw [hqu] at h
                dsimp only at h
                cases hout : (if env.dryRun = true then some true else env.result e) with
                | none =>
                  rw [hout] at h
                  simp only [Option.some.injEq, Prod.mk.injEq] at h
                  refine ⟨?_, ?_⟩
                  · intro hc
                    rw [← h.2.2] at hc
                    cases hc
                  · intro hc
                    rw [← h.2.1]
                    decide
                | some succ =>
                  rw [hout] at h
                  dsimp only at h
                  cases hfc : finishCommand g env fuel { bs1 with queue := qrest } e
                      succ err1 with
                  | none => rw [hfc] at h; cases h
                  | some r2 =>
                    obtain ⟨bs3, err3, okF⟩ := r2
                    rw [hfc] at h
                    dsimp only at h
                    by_cases hokF : okF = false
                    · rw [if_pos hokF] at h
                      simp only [Option.some.injEq, Prod.mk.injEq] at h
                      refine ⟨?_, ?_⟩
                      · intro hc
                        rw [← h.2.2] at hc
                        cases hc
                      · intro hc
                        rw [← h.2.1]
                        subst hokF
                        exact finishCommand_err g env fuel { bs1 with queue := qrest }
                          e succ err1 bs3 err3 hstat hfc
                    · rw [if_neg hokF] at h
                      exact ih _ _ _ _ _ _ _ h
            · rw [if_neg hpend] at h
              by_cases hfe : fa = 0 ∧ bs1.failedEdges ≠ []
              · rw [if_pos hfe] at h
                simp only [Option.some.injEq, Prod.mk.injEq] at h
                refine ⟨?_, ?_⟩
                · intro hc
                  rw [← h.2.2] at hc
                  cases hc
                · intro hc
                  rw [← h.2.1]
                  unfold failMessage
                  by_cases hgt : 1 < env.failuresAllowed
                  · rw [if_pos hgt]
                    exact append_left_ne_empty _ _ (append_left_ne_empty _ _ (by decide))
                  · rw [if_neg hgt]
                    exact append_left_ne_empty _ _ (append_left_ne_empty _ _ (by decide))
              · rw [if_neg hfe] at h
                by_cases hlt : fa < env.failuresAllowed
                · rw [if_pos hlt] at h
                  simp only [Option.some.injEq, Prod.mk.injEq] at h
                  refine ⟨?_, ?_⟩
                  · intro hc
                    rw [← h.2.2] at hc
                    cases hc
                  · intro hc
                    rw [← h.2.1]
                    decide
                · rw [if_neg hlt] at h
                  simp only [Option.some.injEq, Prod.mk.injEq] at h
                  refine ⟨?_, ?_⟩
                  · intro hc
                    rw [← h.2.2] at hc
                    cases hc
                  · intro hc
                    rw [← h.2.1]
                    decide
    · rw [if_neg hmt] at h
      simp only [Option.some.injEq, Prod.mk.injEq] at h
      refine ⟨?_, ?_⟩
      · intro hc
        rw [← h.1]
        cases hv : moreToDo bs.plan
        · rfl
        · exact absurd hv hmt
      · intro hc
        rw [← h.2.2] at hc
        cases hc

/-- C4 (amended): when the disk layer creates directories and response
files successfully and a failing stat reports a message, Build returns
true only with the plan reporting no more work, and any false return
carries a non-empty error; without those disk hypotheses StartEdge returns
false with the error left empty. -/
theorem build_amended (g : Graph) (env : BuildEnv) (fuel : Nat) (bs : BuilderState)
    (err : String) (bs2 : BuilderState) (err2 : String) (ok : Bool)
    (hmk : ∀ o, env.makeDirsOk o = true)
    (hrsp : ∀ e2, env.writeRspOk e2 = true)
    (hstat : env.statErr ≠ "")
    (h : build g env fuel bs err = some (bs2, err2, ok)) :
    (ok = true → moreToDo bs2.plan = false) ∧ (ok = false → err2 ≠ "") := by
  unfold build at h
  by_cases hmt : moreToDo bs.plan = false
  · rw [if_pos hmt] at h
    cases h
  · rw [if_neg hmt] at h
    cases hpq : prepareQueue g fuel bs.plan with
    | none => rw [hpq] at h; cases h
    | some p2 =>
      rw [hpq] at h
      exact buildLoop_spec g env hmk hrsp hstat fuel _ _ _ _ _ _ _ h

def envC : BuildEnv :=
  { dryRun := true, logPresent := true, recordOk := true,
    depsRecordOk := fun _ => true, extractOk := fun _ => true,
    stat := fun _ => 1, statErr := "stat: input/output error",
    recomputeOutputsDirty := fun _ _ => some false, errnoStr := "EIO",
    makeDirsOk := fun _ => true, lockStat := 3,
    writeRspOk := fun _ => true, subprocAddOk := fun _ => true,
    evalCommand := fun _ => "cc -c x", result := fun _ => some true,
    startTime := fun _ => 5, endTime := fun _ => 7,
    failuresAllowed := 1, capacity := fun _ => 1 }

def envA : BuildEnv := { envC with makeDirsOk := fun _ => false }

def envB : BuildEnv := { envC with recordOk := false }

def bsC : BuilderState :=
  { plan := { planState0 with
      targets := [0],
      want := [(0, Want.toStart)],
      wantedEdges := 1,
      commandEdges := 1,
      cpw := fun _ => -1 },
    runningEdges := [],
    commandStartTime := fun _ => 0,
    journal := [],
    failedEdges := [],
    queue := [] }

/-- The plan bsC.plan after PrepareQueue, written out: edge 0 scheduled
(ready, want kWantToFinish, pool charged) with critical-path weight 1. -/
def planP : PlanState :=
  { targets := [0], want := [(0, Want.toFinish)], wantedEdges := 1, commandEdges := 1,
    ready := [0], dirty := fun _ => false, outputsReady := fun _ => false,
    cpw := fun i => if i = 0 then 1 else -1,
    pools := fun i => if i = 0 then ⟨1, []⟩ else ⟨0, []⟩ }

set_option maxHeartbeats 1000000 in
theorem prepareQueue_bsC : prepareQueue gD 5 bsC.plan = some planP := rfl

set_option maxHeartbeats 1600000 in
/-- C4 counterexample: a MakeDirs failure makes Build return false with the
error string still empty, and a build-log write failure makes Build return
false even though the plan was fully drained and no edge failed - refuting
both the non-empty-error claim and the stated equivalence. -/
theorem build_counterexample :
    ((build gD envA 5 bsC "").map (fun r => (r.2.1, r.2.2)) = some ("", false)) ∧
      ((build gD envB 5 bsC "").map
          (fun r => (moreToDo r.1.plan, r.1.failedEdges, r.2.2)) =
        some (false, [], false)) := by
  constructor
  · show (build gD envA 5 bsC "").map (fun r => (r.2.1, r.2.2)) = some ("", false)
    unfold build
    rw [prepareQueue_bsC]
    rfl
  · show (build gD envB 5 bsC "").map
        (fun r => (moreToDo r.1.plan, r.1.failedEdges, r.2.2)) = some (false, [], false)
    unfold build
    rw [prepareQueue_bsC]
    rfl

/-- The plan at the end of the successful witness run. -/
def planXC : PlanState :=
  { targets := [0], want := [], wantedEdges := 0, commandEdges := 1,
    ready := [], dirty := fun _ => false,
    outputsReady := fun i => if i = 0 then true else false,
    cpw := fun i => if i = 0 then 1 else -1,
    pools := fun i => if i = 0 then ⟨0, []⟩ else
      if i = 0 then ⟨0, []⟩ else
        if i = 0 then ⟨1, []⟩ else ⟨0, []⟩ }

/-- The Builder state at the end of the successful witness run. -/
def bldXC : BuilderState :=
  { plan := planXC,
    runningEdges := [],
    commandStartTime := fun i => if i = 0 then 3 else 0,
    journal := [(0, 5, 7, 0)],
    failedEdges := [],
    queue := [] }

set_option maxHeartbeats 1600000 in
/-- Witness for the amended C4 theorem on a concrete successful dry run. -/
theorem build_amended_witness :
    ((∀ o, envC.makeDirsOk o = true) ∧ (∀ e2, envC.writeRspOk e2 = true) ∧
        envC.statErr ≠ "" ∧ build gD envC 5 bsC "" = some (bldXC, "", true)) ∧
      (((true : Bool) = true → moreToDo bldXC.plan = false) ∧
        ((true : Bool) = false → ("" : String) ≠ "")) := by
  have h : build gD envC 5 bsC "" = some (bldXC, "", true) := by
    unfold build
    rw [prepareQueue_bsC]
    rfl
  exact ⟨⟨fun o => rfl, fun e2 => rfl, by decide, h⟩,
    build_amended gD envC 5 bsC "" bldXC "" true
      (fun o => rfl) (fun e2 => rfl) (by decide) h⟩

end BuildCore
